import Mathlib

/-!
Verification of the HPR knowledge-base server (`data-loader.js` search engine
and the HTTP gateway's circuit breaker) against its natural-language
specification.

Strings are modelled as `List Char`.  JavaScript's `toLowerCase`, the
case-insensitive regex flag and locale string comparison are modelled at the
ASCII level (`Char.toLower`, char-wise lowering, code-point lexicographic
order), which is faithful on the ASCII corpus the claims exercise.
-/

abbrev Str := List Char

/-- Model of `s.toLowerCase()`, char-wise (ASCII). -/
def strLower (s : Str) : Str := s.map Char.toLower

/-- Whether `needle` is a prefix of `hay` (helper for substring containment). -/
def strStartsWith : Str → Str → Bool
  | [], _ => true
  | _ :: _, [] => false
  | c :: cs, d :: ds => c = d && strStartsWith cs ds

/-- Model of `hay.includes(needle)` : substring containment, true for the empty needle. -/
def containsSub (needle : Str) : Str → Bool
  | [] => strStartsWith needle []
  | c :: cs => strStartsWith needle (c :: cs) || containsSub needle cs

/-- Whitespace as matched by the `\s` class on the repository's data (ASCII). -/
def isWs (c : Char) : Bool := c = ' ' || c = '\t' || c = '\n' || c = '\r'

/-- Model of `String.prototype.trim()` : strip leading and trailing whitespace. -/
def strTrim (s : Str) : Str :=
  ((s.dropWhile isWs).reverse.dropWhile isWs).reverse

/-- Worker for `splitWs`; `cur` holds the chars of the current token reversed
and `sep` records whether we are inside a whitespace run (so the run is
treated as a single separator). -/
def splitWsGo : Str → Str → Bool → List Str
  | [], cur, _ => [cur.reverse]
  | c :: rest, cur, sep =>
    if isWs c then
      if sep then splitWsGo rest [] true
      else cur.reverse :: splitWsGo rest [] true
    else splitWsGo rest (c :: cur) false

/-- Model of `s.split(/\s+/)` : split at maximal whitespace runs (leading/trailing runs
produce empty tokens, the empty string yields one empty token). -/
def splitWs (s : Str) : List Str := splitWsGo s [] false

/-- Separator class of `query.split(/[|,;\n]/)` in `searchTranscripts`. -/
def isTermSep (c : Char) : Bool := c = '|' || c = ',' || c = ';' || c = '\n'

/-- Worker for `splitSeps`; single-char separators, empty pieces kept. -/
def splitSepsGo : Str → Str → List Str
  | [], cur => [cur.reverse]
  | c :: rest, cur =>
    if isTermSep c then cur.reverse :: splitSepsGo rest []
    else splitSepsGo rest (c :: cur)

/-- Model of `query.split(/[|,;\n]/)`. -/
def splitSeps (s : Str) : List Str := splitSepsGo s []

/-- Worker for `splitLines`; drops one `\r` directly before each `\n`. -/
def splitLinesGo : Str → Str → List Str
  | [], cur => [cur.reverse]
  | c :: rest, cur =>
    if c = '\n' then
      (match cur with
        | '\r' :: cur' => cur'.reverse
        | _ => cur.reverse) :: splitLinesGo rest []
    else splitLinesGo rest (c :: cur)

/-- Model of `transcript.split(/\r?\n/)`. -/
def splitLines (s : Str) : List Str := splitLinesGo s []

/-- Code-point lexicographic `≤` on strings, modelling `localeCompare ≤ 0`
and the JS relational string operators on the ISO date strings. -/
def strLe : Str → Str → Bool
  | [], _ => true
  | _ :: _, [] => false
  | c :: cs, d :: ds => if c = d then strLe cs ds else decide (c < d)

/-!
## Levenshtein distance (`levenshteinDistance` in data-loader.js)

The source fills an `(|b|+1) × (|a|+1)` matrix with
`matrix[i][j] = d(a[0..j), b[0..i))` by the textbook recurrence
(`matrix[i-1][j-1]` substitution, `matrix[i][j-1]` insertion,
`matrix[i-1][j]` deletion).  The shallow embedding computes the same
recurrence cell-wise by structural recursion, so the definition reduces in
the kernel.
-/

/-- Inner recurrence: `levAux c as (levenshteinDistance as) b` computes
`d(c :: as, b)` given the distances from `as`. -/
def levAux (c : Char) (as : Str) (levAs : Str → Nat) : Str → Nat
  | [] => as.length + 1
  | d :: bs =>
    if c = d then levAs bs
    else 1 + min (levAs bs) (min (levAs (d :: bs)) (levAux c as levAs bs))

/-- Levenshtein edit distance as computed by the source's dynamic program:
`d([],b)=|b|`, `d(a,[])=|a|`, and on two cons cells the three-way minimum over
substitution, insertion and deletion (equal heads cost 0). -/
def levenshteinDistance : Str → Str → Nat
  | [], b => b.length
  | c :: as, b => levAux c as (levenshteinDistance as) b

/-- Cells 1 to |a| of a matrix row, computed left to right from the previous
row exactly as the source's inner `j` loop: `pdiag` is `matrix[i-1][j-1]`,
`cur` is `matrix[i][j-1]` (insertion), `prest.headD 0` is `matrix[i-1][j]`
(deletion); equal characters copy the diagonal, otherwise one plus the
three-way minimum in the source's argument order. -/
def levMatrixRowGo (bc : Char) : Str → List Nat → Nat → List Nat
  | [], _, _ => []
  | ac :: arest, prev, cur =>
    match prev with
    | [] => []
    | pdiag :: prest =>
      let v := if bc = ac then pdiag
        else 1 + min pdiag (min cur (prest.headD 0))
      v :: levMatrixRowGo bc arest prest v

/-- Matrix row `i` for the character `bc = b.charAt(i-1)`: the first-column
initialisation `matrix[i][0] = i` followed by the filled cells. -/
def levMatrixRow (bc : Char) (a : Str) (prev : List Nat) (i : Nat) : List Nat :=
  i :: levMatrixRowGo bc a prev i

/-- Row-major fill of the source's outer `i` loop, returning the last row. -/
def levMatrixGo (a : Str) : Str → List Nat → Nat → List Nat
  | [], prev, _ => prev
  | bc :: brest, prev, i => levMatrixGo a brest (levMatrixRow bc a prev (i + 1)) (i + 1)

/-- Model of the source's `levenshteinDistance` exactly as implemented: early
returns for empty inputs, first row `0..|a|`, first-column cells `i`,
row-major fill by the cell recurrence, answer read at `matrix[|b|][|a|]`.
Proved equal to the recurrence form `levenshteinDistance` below
(`levenshteinDistanceMatrix_eq`). -/
def levenshteinDistanceMatrix (a b : Str) : Nat :=
  if a.length = 0 then b.length
  else if b.length = 0 then a.length
  else (levMatrixGo a b (List.range (a.length + 1)) 0).getD a.length 0

/-- Proposition `Transforms a b n` : `a` can be turned into `b` by an alignment that uses
exactly `n` single-character substitutions, insertions and deletions (matched
characters are free).  This is the standard inductive presentation of edit
scripts. -/
inductive Transforms : Str → Str → Nat → Prop
  | nil : Transforms [] [] 0
  | copy {as bs n} (c : Char) : Transforms as bs n → Transforms (c :: as) (c :: bs) n
  | subst {as bs n} (c d : Char) : Transforms as bs n → Transforms (c :: as) (d :: bs) (n + 1)
  | ins {as bs n} (d : Char) : Transforms as bs n → Transforms as (d :: bs) (n + 1)
  | del {as bs n} (c : Char) : Transforms as bs n → Transforms (c :: as) bs (n + 1)

/-!
## Stable sort (model of `Array.prototype.sort` with a comparator)

The engine sorts results with JavaScript's stable sort.  We model it as a
stable insertion sort parameterised by the boolean relation
`le a b = (comparator a b ≤ 0)`; an element is inserted before the first
already-placed element it compares `le` to, which preserves the original
order of ties exactly as a stable sort does.
-/

/-- Insert `x` into `l` before the first element `h` with `le x h`. -/
def insertSorted (le : α → α → Bool) (x : α) : List α → List α
  | [] => [x]
  | h :: t => if le x h then x :: h :: t else h :: insertSorted le x t

/-- Stable insertion sort by the boolean comparator relation `le`. -/
def sortBy (le : α → α → Bool) : List α → List α
  | [] => []
  | x :: xs => insertSorted le x (sortBy le xs)

/-!
## Circuit breaker (class `CircuitBreaker` in the HTTP gateway)

`execute(fn)` is modelled as a transition on the breaker state: the wrapped
operation `fn` is abstracted by the boolean `ok` (did it resolve or throw),
`Date.now()` by the `now : Nat` argument, and the observable outcome by
`ExecOutcome` (`rejected` = the "Service temporarily unavailable" error was
thrown without invoking `fn`; `succeeded`/`failed` = `fn` was invoked and its
result or error propagated).
-/

inductive CBState
  | CLOSED
  | OPEN
  | HALF_OPEN
deriving DecidableEq, Repr

structure CircuitBreaker where
  failures : Nat
  threshold : Nat
  timeout : Nat
  state : CBState
  nextAttempt : Nat
deriving DecidableEq, Repr

/-- Model of `new CircuitBreaker(threshold, timeout)` at current time `now`
(defaults: threshold 5, timeout 60000 ms; `nextAttempt = Date.now()`). -/
def newCircuitBreaker (threshold timeout now : Nat) : CircuitBreaker :=
  ⟨0, threshold, timeout, .CLOSED, now⟩

inductive ExecOutcome
  | rejected
  | succeeded
  | failed
deriving DecidableEq, Repr

/-- The admission phase at the top of `execute`: while OPEN before
`nextAttempt` the call is rejected outright; at or after `nextAttempt` the
state is first set to HALF_OPEN; otherwise the breaker is left as is.
`none` means the wrapped operation is never invoked. -/
def CircuitBreaker.gate (cb : CircuitBreaker) (now : Nat) : Option CircuitBreaker :=
  if cb.state = .OPEN then
    if now < cb.nextAttempt then none
    else some { cb with state := .HALF_OPEN }
  else some cb

/-- Success path of `execute`: only a HALF_OPEN success closes the breaker
and zeroes the failure count; a CLOSED success changes nothing. -/
def CircuitBreaker.onSuccess (cb : CircuitBreaker) : CircuitBreaker :=
  if cb.state = .HALF_OPEN then { cb with state := .CLOSED, failures := 0 } else cb

/-- Failure path of `execute`: increment `failures` and open the breaker
(recording `nextAttempt = now + timeout`) once the threshold is reached. -/
def CircuitBreaker.onFailure (cb : CircuitBreaker) (now : Nat) : CircuitBreaker :=
  if cb.threshold ≤ cb.failures + 1 then
    { cb with failures := cb.failures + 1, state := .OPEN, nextAttempt := now + cb.timeout }
  else { cb with failures := cb.failures + 1 }

/-- One call through `execute`, returning the next breaker state and the
caller-visible outcome. -/
def CircuitBreaker.execute (cb : CircuitBreaker) (now : Nat) (ok : Bool) :
    CircuitBreaker × ExecOutcome :=
  match cb.gate now with
  | none => (cb, .rejected)
  | some cb' => if ok then (cb'.onSuccess, .succeeded) else (cb'.onFailure now, .failed)

/-- Fold a sequence of calls (each a timestamp and the wrapped operation's
outcome) through the breaker. -/
def runCalls (cb : CircuitBreaker) : List (Nat × Bool) → CircuitBreaker
  | [] => cb
  | (now, ok) :: rest => runCalls (cb.execute now ok).fst rest

/-- Model of `CircuitBreaker.reset()`. -/
def CircuitBreaker.reset (cb : CircuitBreaker) : CircuitBreaker :=
  { cb with failures := 0, state := .CLOSED }

/-- The `POST /reset` administrative endpoint: it invokes `reset()` only when
the breaker is OPEN, and otherwise reports "already CLOSED" and leaves the
breaker untouched. -/
def resetEndpoint (cb : CircuitBreaker) : CircuitBreaker :=
  if cb.state = .OPEN then cb.reset else cb

/-!
## Search engine data model (`HPRDataLoader` in data-loader.js)

Only the fields the search methods read are modelled.  The transcripts map
is a list of (episode id, text) pairs in insertion order, matching the
iteration order of the JS `Map`.
-/

structure Episode where
  id : Nat
  title : Str
  summary : Str
  tags : Str
  notes : Str
  hostid : Nat
  series : Nat
  date : Str
deriving DecidableEq, Repr

structure Host where
  hostid : Nat
  host : Str
  email : Str
deriving DecidableEq, Repr

inductive MatchType
  | exact
  | fuzzy
deriving DecidableEq, Repr

/-- An episode search hit: the episode spread together with its `matchType`
tag and, for fuzzy hits, the recorded `matchDistance`. -/
structure SearchResult where
  ep : Episode
  matchType : MatchType
  matchDistance : Option Nat
deriving DecidableEq, Repr

structure EpisodeSearchOptions where
  limit : Nat := 20
  hostId : Option Nat := none
  seriesId : Option Nat := none
  tag : Option Str := none
  fromDate : Option Str := none
  toDate : Option Str := none
  maxDistance : Nat := 3
deriving Repr

/-- The `matchesFilters` helper of `searchEpisodes`.  JS truthiness is
modelled faithfully: a `hostId` of 0 and empty `tag`/`fromDate`/`toDate`
strings are falsy, so those filters pass everything; `seriesId` is compared
with a strict `=== null` check, so 0 is a real filter value there. -/
def matchesFilters (o : EpisodeSearchOptions) (ep : Episode) : Bool :=
  (match o.hostId with
    | none => true
    | some h => h = 0 || ep.hostid = h) &&
  (match o.seriesId with
    | none => true
    | some s => ep.series = s) &&
  (match o.tag with
    | none => true
    | some t => t = [] || containsSub (strLower t) (strLower ep.tags)) &&
  (match o.fromDate with
    | none => true
    | some f => f = [] || strLe f ep.date) &&
  (match o.toDate with
    | none => true
    | some t => t = [] || strLe ep.date t)

/-- The exact-path query predicate: empty query matches everything, else a
case-insensitive substring of title, summary, tags or notes. -/
def exactQueryMatch (q : Str) (ep : Episode) : Bool :=
  q = [] ||
  containsSub (strLower q) (strLower ep.title) ||
  containsSub (strLower q) (strLower ep.summary) ||
  containsSub (strLower q) (strLower ep.tags) ||
  containsSub (strLower q) (strLower ep.notes)

/-- The exact pass of `searchEpisodes` (filter then tag `exact`). -/
def exactResults (db : List Episode) (q : Str) (o : EpisodeSearchOptions) :
    List SearchResult :=
  (db.filter (fun ep => exactQueryMatch q ep && matchesFilters o ep)).map
    (fun ep => ⟨ep, .exact, none⟩)

/-- Minimum Levenshtein distance from the lower-cased query to the
whitespace-delimited words of the lower-cased title (the `minDistance` loop;
the word list is never empty, so the `[]` arm is unreachable). -/
def minWordDistance (ql : Str) (title : Str) : Nat :=
  match (splitWs (strLower title)).map (levenshteinDistance ql) with
  | [] => 0
  | d :: ds => ds.foldl min d

/-- The fuzzy fallback pass of `searchEpisodes`: filtered episodes scored by
`minWordDistance`, kept when within `maxDistance`, sorted by ascending
distance and tagged `fuzzy`. -/
def fuzzyResults (db : List Episode) (q : Str) (o : EpisodeSearchOptions) :
    List SearchResult :=
  (sortBy (fun a b => decide (a.snd ≤ b.snd))
      (((db.filter (matchesFilters o)).map
          (fun ep => (ep, minWordDistance (strLower q) ep.title))).filter
        (fun r => r.snd ≤ o.maxDistance))).map
    (fun r => ⟨r.fst, .fuzzy, some r.snd⟩)

def resultDist (r : SearchResult) : Nat := r.matchDistance.getD 0

/-- The final sort comparator of `searchEpisodes` as a `≤` relation
(`comparator a b ≤ 0`): when both hits are fuzzy, ascending distance decides
unless equal; otherwise (and on distance ties) descending date. -/
def resultLe (a b : SearchResult) : Bool :=
  if a.matchType = MatchType.fuzzy && b.matchType = MatchType.fuzzy then
    if resultDist a = resultDist b then strLe b.ep.date a.ep.date
    else decide (resultDist a < resultDist b)
  else strLe b.ep.date a.ep.date

/-- State of `searchEpisodes` before the final `slice(0, limit)`: exact pass, fuzzy
fallback when the exact pass is empty and the query is non-blank, then the
final sort. -/
def searchEpisodesPre (db : List Episode) (q : Str) (o : EpisodeSearchOptions) :
    List SearchResult :=
  let results := exactResults db q o
  let results :=
    if results = [] ∧ q ≠ [] ∧ strTrim q ≠ [] then fuzzyResults db q o else results
  sortBy resultLe results

/-- Model of `HPRDataLoader.searchEpisodes`. -/
def searchEpisodes (db : List Episode) (q : Str) (o : EpisodeSearchOptions) :
    List SearchResult :=
  (searchEpisodesPre db q o).take o.limit

/-- A host search hit (host spread with `matchType` and fuzzy distance). -/
structure HostSearchResult where
  h : Host
  matchType : MatchType
  matchDistance : Option Nat
deriving DecidableEq, Repr

/-- Exact pass predicate of `searchHosts`: case-insensitive substring of
name or email. -/
def hostExactMatch (ql : Str) (h : Host) : Bool :=
  containsSub ql (strLower h.host) || containsSub ql (strLower h.email)

/-- Fuzzy score of `searchHosts`: minimum of the distances from the
lower-cased query to the lower-cased name and email. -/
def hostMinDist (ql : Str) (h : Host) : Nat :=
  min (levenshteinDistance ql (strLower h.host))
    (levenshteinDistance ql (strLower h.email))

/-- Model of `HPRDataLoader.searchHosts` (default `maxDistance` is 2 at every call
site in the repository). -/
def searchHosts (db : List Host) (q : Str) (maxDistance : Nat) : List HostSearchResult :=
  let ql := strLower q
  let exactMatches := (db.filter (hostExactMatch ql)).map
    (fun h => (⟨h, .exact, none⟩ : HostSearchResult))
  if exactMatches ≠ [] then exactMatches
  else
    (sortBy (fun a b => decide (a.snd ≤ b.snd))
        ((db.map (fun h => (h, hostMinDist ql h))).filter
          (fun r => r.snd ≤ maxDistance))).map
      (fun r => ⟨r.fst, .fuzzy, some r.snd⟩)

/-!
## Transcript search (`HPRDataLoader.searchTranscripts`)

Each term is compiled in the source to an escaped-literal regex, optionally
wrapped in `\b` word boundaries, with the `i` flag unless `caseSensitive`.
An escaped literal pattern never throws, so a matcher is modelled by its
term string, and `regex.test(line)` by literal (or whole-word) containment
after optional case folding.
-/

structure TranscriptSearchOptions where
  limit : Nat := 20
  contextLines : Nat := 3
  terms : List Str := []
  matchMode : Str := "auto".data
  hostId : Option Nat := none
  hostName : Option Str := none
  caseSensitive : Bool := false
  wholeWord : Bool := false
  maxMatchesPerEpisode : Nat := 5
deriving Repr

/-- JS regex `\w` class: ASCII letters, digits and underscore. -/
def isWordChar (c : Char) : Bool := c.isAlpha || c.isDigit || c = '_'

/-- Is the character at index `i` of `l` a word character (out of range
counts as non-word, as at the ends of a regex subject)? -/
def isWordAt (l : Str) (i : Nat) : Bool :=
  match l.get? i with
  | some c => isWordChar c
  | none => false

/-- Regex `\b`: a word boundary sits before index `p` iff exactly one of the
characters around that position is a word character. -/
def wordBoundaryAt (l : Str) (p : Nat) : Bool :=
  (if p = 0 then false else isWordAt l (p - 1)) != isWordAt l p

/-- Whether the pattern `\bterm\b` matches somewhere in `l`. -/
def wholeWordMatch (t l : Str) : Bool :=
  (List.range (l.length + 1)).any fun i =>
    strStartsWith t (l.drop i) && wordBoundaryAt l i && wordBoundaryAt l (i + t.length)

/-- Model of `matcher.regex.test(line)` for the matcher built from `term`. -/
def lineMatches (caseSensitive wholeWord : Bool) (term line : Str) : Bool :=
  let t := if caseSensitive then term else strLower term
  let l := if caseSensitive then line else strLower line
  if wholeWord then wholeWordMatch t l else containsSub t l

/-- One recorded transcript match: 1-based line number, the distinct terms
matched on the line, and the joined context window. -/
structure TMatch where
  lineNumber : Nat
  terms : List Str
  context : Str
deriving DecidableEq, Repr

structure MatchSummary where
  matchMode : Str
  matchedTerms : List Str
  totalMatches : Nat
  termHitCounts : List (Str × Nat)
  truncated : Bool
deriving DecidableEq, Repr

structure TranscriptResult where
  episode : Episode
  «matches» : List TMatch
  matchSummary : MatchSummary
deriving DecidableEq, Repr

/-- Model of `Set.add`: append if absent, keeping insertion order. -/
def insertDistinct [DecidableEq α] (x : α) (l : List α) : List α :=
  if x ∈ l then l else l ++ [x]

/-- Model of `termHitCounts.set(term, (get(term) || 0) + 1)` on an insertion-ordered
association list. -/
def bumpCount (x : Str) : List (Str × Nat) → List (Str × Nat)
  | [] => [(x, 1)]
  | (y, n) :: rest => if y = x then (y, n + 1) :: rest else (y, n) :: bumpCount x rest

/-- Model of `lines.slice(start, end).join('\n')`. -/
def joinLines : List Str → Str
  | [] => []
  | [l] => l
  | l :: ls => l ++ '\n' :: joinLines ls

/-- The context window around line `i`: `contextLines` lines before and
after, clamped to the transcript (Nat subtraction is the `Math.max(0, ·)`). -/
def contextWindow (allLines : List Str) (i ctx : Nat) : Str :=
  let start := i - ctx
  let stop := min allLines.length (i + ctx + 1)
  joinLines ((allLines.drop start).take (stop - start))

/-- Mutable scan state of the per-transcript line loop. -/
structure ScanState where
  «matches» : List TMatch
  matchedTerms : List Str
  termHitCounts : List (Str × Nat)
  truncated : Bool
deriving DecidableEq, Repr

/-- The line loop of `searchTranscripts` for one transcript: test every
matcher against the line, update the matched-term set and hit counts, record
a match when any matcher hit, and stop permanently (setting `truncated`) as
soon as `maxMatchesPerEpisode` matches have been recorded. -/
def scanGo (cs ww : Bool) (matchers : List Str) (allLines : List Str) (ctx maxM : Nat) :
    Nat → List Str → ScanState → ScanState
  | _, [], st => st
  | i, line :: rest, st =>
    let matchedOnLine := matchers.filter fun m => lineMatches cs ww m line
    let st1 : ScanState :=
      { st with
        matchedTerms := matchedOnLine.foldl (fun acc t => insertDistinct t acc) st.matchedTerms,
        termHitCounts := matchedOnLine.foldl (fun acc t => bumpCount t acc) st.termHitCounts }
    let st2 : ScanState :=
      if matchedOnLine ≠ [] then
        { st1 with
          «matches» := st1.«matches» ++
            [⟨i + 1, matchedOnLine.foldl (fun acc t => insertDistinct t acc) [],
              contextWindow allLines i ctx⟩] }
      else st1
    if maxM ≤ st2.«matches».length then { st2 with truncated := true }
    else scanGo cs ww matchers allLines ctx maxM (i + 1) rest st2

/-- Scan a whole transcript from line 0 with an empty state. -/
def scanTranscript (cs ww : Bool) (matchers : List Str) (ctx maxM : Nat)
    (transcript : Str) : ScanState :=
  let lines := splitLines transcript
  scanGo cs ww matchers lines ctx maxM 0 lines ⟨[], [], [], false⟩

/-- The per-transcript verdict: drop the episode when no line matched, and
additionally, under `all` mode, when the distinct matched terms do not cover
every matcher. -/
def evalTranscript (cs ww : Bool) (matchers : List Str) (ctx maxM : Nat)
    (resolvedMode : Str) (transcript : Str) : Option ScanState :=
  let st := scanTranscript cs ww matchers ctx maxM transcript
  if st.«matches» = [] then none
  else if resolvedMode = "all".data ∧ st.matchedTerms.length < matchers.length then none
  else some st

/-- The in-memory corpus held by `HPRDataLoader`. -/
structure Database where
  episodes : List Episode
  hosts : List Host
  transcripts : List (Nat × Str)
deriving Repr

/-- Model of `this.getEpisode(id)`. -/
def getEpisode (db : Database) (id : Nat) : Option Episode :=
  db.episodes.find? fun ep => ep.id = id

/-- Model of `terms.map(t => (t ?? '').toString().trim()).filter(Boolean)`. -/
def explicitTermsOf (terms : List Str) : List Str :=
  (terms.map strTrim).filter fun t => t ≠ []

/-- Query splitting used when the requested mode is `any`/`all`. -/
def splitQueryTerms (q : Str) (matchMode : Str) : List Str :=
  if matchMode = "any".data ∨ matchMode = "all".data then
    ((splitSeps q).map strTrim).filter fun t => t ≠ []
  else []

/-- Host filter resolution: an explicit (truthy) `hostId` plus the host ids
of every `searchHosts` hit for a (truthy) `hostName`, collected as a set. -/
def resolvedHostIds (db : Database) (o : TranscriptSearchOptions) : List Nat :=
  let ids : List Nat :=
    match o.hostId with
    | some h => if h = 0 then [] else [h]
    | none => []
  match o.hostName with
  | some nm =>
    if nm = [] then ids
    else ((searchHosts db.hosts nm 2).map fun r => r.h.hostid).foldl
      (fun acc i => insertDistinct i acc) ids
  | none => ids

/-- Body of the transcript loop for one `(episodeId, transcript)` entry:
resolve the episode (skip unknown ids), apply the host filter, then the
per-transcript verdict; on success build the result record with its
summary. -/
def processTranscript (db : Database) (o : TranscriptSearchOptions)
    (matchers : List Str) (resolvedMode : Str) (hostIds : List Nat)
    (filterByHost : Bool) (entry : Nat × Str) : Option TranscriptResult :=
  match getEpisode db entry.fst with
  | none => none
  | some ep =>
    if filterByHost ∧ ep.hostid ∉ hostIds then none
    else
      match evalTranscript o.caseSensitive o.wholeWord matchers o.contextLines
        o.maxMatchesPerEpisode resolvedMode entry.snd with
      | none => none
      | some st =>
        some ⟨ep, st.«matches»,
          ⟨resolvedMode, st.matchedTerms, st.«matches».length, st.termHitCounts, st.truncated⟩⟩

/-- The transcript loop with the global `limit` break (`cap` is the room left
before `results.length` reaches `limit`). -/
def searchTranscriptsGo (f : Nat × Str → Option TranscriptResult) :
    List (Nat × Str) → Nat → List TranscriptResult
  | [], _ => []
  | e :: rest, cap =>
    if cap = 0 then []
    else
      match f e with
      | none => searchTranscriptsGo f rest cap
      | some r => r :: searchTranscriptsGo f rest (cap - 1)

/-- Model of `HPRDataLoader.searchTranscripts`: term and mode resolution followed by
the capped scan over the transcripts map. -/
def searchTranscripts (db : Database) (q : Str) (o : TranscriptSearchOptions) :
    List TranscriptResult :=
  let hostIds := resolvedHostIds db o
  let filterByHost := hostIds ≠ []
  let eTerms := explicitTermsOf o.terms
  let hasQuery := strTrim q ≠ []
  let sTerms0 := if eTerms ≠ [] then eTerms else splitQueryTerms q o.matchMode
  let sTerms := if sTerms0 = [] ∧ hasQuery then [strTrim q] else sTerms0
  let resolvedMode :=
    if o.matchMode = "any".data ∨ o.matchMode = "all".data ∨ o.matchMode = "phrase".data
    then o.matchMode
    else if 1 < sTerms.length then "any".data else "phrase".data
  let effTerms :=
    if resolvedMode = "phrase".data then
      (let t := if hasQuery then strTrim q else sTerms.headD []
       if t = [] then [] else [t])
    else sTerms
  if effTerms = [] then []
  else
    let matchers := effTerms.filter fun t => t ≠ []
    if matchers = [] then []
    else searchTranscriptsGo
      (processTranscript db o matchers resolvedMode hostIds filterByHost)
      db.transcripts o.limit

/-!
## Claims C4 - C5 : episode search
-/

def epLinux : Episode :=
  ⟨1, "Linux basics".data, "intro".data, "os".data, "about".data, 7, 0, "2020-01-05".data⟩

def epPasta : Episode :=
  ⟨2, "Cooking pasta".data, "food".data, "kitchen".data, "n".data, 8, 0, "2021-03-05".data⟩

def epTiny : Episode :=
  ⟨3, "x".data, "y".data, "z".data, "w".data, 9, 0, "2022-01-01".data⟩

def epDefaults : EpisodeSearchOptions := {}

/-!
## Claim C6 : host search
-/

def hostKlaatu : Host := ⟨10, "klaatu".data, "klaatu@example.com".data⟩

def hostDroops : Host := ⟨11, "droops".data, "droops@example.com".data⟩

/-!
## Claims C7, C8, C10 : transcript search scan
-/

/-- Number of lines in `lines` on which some matcher fires (the claim's
"matching lines"). -/
def countMatchingLines (cs ww : Bool) (ms : List Str) (lines : List Str) : Nat :=
  (lines.filter (fun l => ms.any (fun m => lineMatches cs ww m l))).length

def trOnlyAlpha : Str :=
  "alpha stuff here\nmore alpha lines\nnothing\nalpha again\nalpha four\nalpha five\nalpha six".data

def dbOnlyAlpha : Database := ⟨[epLinux], [], [(1, trOnlyAlpha)]⟩

def tsAll : TranscriptSearchOptions :=
  { terms := ["alpha".data, "beta".data], matchMode := "all".data }

def tsAny : TranscriptSearchOptions :=
  { terms := ["alpha".data, "beta".data], matchMode := "any".data }

def dbOneAlpha : Database := ⟨[epLinux], [], [(1, "alpha".data)]⟩

def trAlphaBeta : Str := "alpha\nbeta".data

def dbAlphaBeta : Database := ⟨[epLinux], [], [(1, trAlphaBeta)]⟩

def tsAllMax1 : TranscriptSearchOptions :=
  { terms := ["alpha".data, "beta".data], matchMode := "all".data,
    maxMatchesPerEpisode := 1 }

/-!
## Proofs
-/

/-!
## Levenshtein distance (`levenshteinDistance` in data-loader.js)

The source fills an `(|b|+1) × (|a|+1)` matrix with
`matrix[i][j] = d(a[0..j), b[0..i))` by the textbook recurrence
(`matrix[i-1][j-1]` substitution, `matrix[i][j-1]` insertion,
`matrix[i-1][j]` deletion).  The shallow embedding computes the same
recurrence cell-wise by structural recursion, so the definition reduces in
the kernel.
-/

example : levenshteinDistance "kitten".data "sitting".data = 3 := by decide

example : levenshteinDistance "flaw".data "lawn".data = 2 := by decide

example : levenshteinDistance [] "abc".data = 3 := by decide

lemma lev_nil_left (b : Str) : levenshteinDistance [] b = b.length := rfl

lemma lev_nil_right (a : Str) : levenshteinDistance a [] = a.length := by
  cases a <;> rfl

lemma lev_cons_cons (c d : Char) (as bs : Str) :
    levenshteinDistance (c :: as) (d :: bs) =
      if c = d then levenshteinDistance as bs
      else 1 + min (levenshteinDistance as bs)
        (min (levenshteinDistance as (d :: bs)) (levenshteinDistance (c :: as) bs)) := rfl

/-- Dropping or adding one leading character on either side changes the edit
distance by at most one (all four one-step bounds, proved together by strong
induction on the total length). -/
lemma lev_bounds : ∀ n (a b : Str), a.length + b.length = n →
    (∀ c, levenshteinDistance (c :: a) b ≤ levenshteinDistance a b + 1) ∧
    (∀ c, levenshteinDistance a b ≤ levenshteinDistance (c :: a) b + 1) ∧
    (∀ d, levenshteinDistance a (d :: b) ≤ levenshteinDistance a b + 1) ∧
    (∀ d, levenshteinDistance a b ≤ levenshteinDistance a (d :: b) + 1) := by
  intro n
  induction n using Nat.strong_induction_on with
  | _ n ih =>
    intro a b hab
    refine ⟨?_, ?_, ?_, ?_⟩
    · -- A2 : lev (c::a) b ≤ lev a b + 1
      intro c
      cases b with
      | nil => simp [lev_nil_right]
      | cons d bs =>
        rw [lev_cons_cons]
        by_cases hcd : c = d
        · rw [if_pos hcd]
          have := (ih (a.length + bs.length) (by simp at hab; omega) a bs rfl).2.2.2 d
          omega
        · rw [if_neg hcd]
          omega
    · -- A1 : lev a b ≤ lev (c::a) b + 1
      intro c
      cases b with
      | nil => simp [lev_nil_right]; omega
      | cons d bs =>
        rw [lev_cons_cons]
        have hb2 := (ih (a.length + bs.length) (by simp at hab; omega) a bs rfl).2.2.1 d
        by_cases hcd : c = d
        · rw [if_pos hcd]
          omega
        · rw [if_neg hcd]
          have ha1 := (ih (a.length + bs.length) (by simp at hab; omega) a bs rfl).2.1 c
          omega
    · -- B2 : lev a (d::b) ≤ lev a b + 1
      intro d
      cases a with
      | nil => simp [lev_nil_left]
      | cons c as =>
        rw [lev_cons_cons]
        by_cases hcd : c = d
        · rw [if_pos hcd]
          have := (ih (as.length + b.length) (by simp at hab; omega) as b rfl).2.1 c
          omega
        · rw [if_neg hcd]
          omega
    · -- B1 : lev a b ≤ lev a (d::b) + 1
      intro d
      cases a with
      | nil => simp [lev_nil_left]; omega
      | cons c as =>
        rw [lev_cons_cons]
        have ha2 := (ih (as.length + b.length) (by simp at hab; omega) as b rfl).1 c
        by_cases hcd : c = d
        · rw [if_pos hcd]
          omega
        · rw [if_neg hcd]
          have hb1 := (ih (as.length + b.length) (by simp at hab; omega) as b rfl).2.2.2 d
          omega

lemma lev_cons_left_le (c : Char) (a b : Str) :
    levenshteinDistance (c :: a) b ≤ levenshteinDistance a b + 1 :=
  (lev_bounds (a.length + b.length) a b rfl).1 c

lemma lev_le_cons_left (c : Char) (a b : Str) :
    levenshteinDistance a b ≤ levenshteinDistance (c :: a) b + 1 :=
  (lev_bounds (a.length + b.length) a b rfl).2.1 c

lemma lev_cons_right_le (d : Char) (a b : Str) :
    levenshteinDistance a (d :: b) ≤ levenshteinDistance a b + 1 :=
  (lev_bounds (a.length + b.length) a b rfl).2.2.1 d

lemma transforms_nil_left : ∀ b : Str, Transforms [] b b.length
  | [] => .nil
  | d :: bs => by simpa using Transforms.ins d (transforms_nil_left bs)

lemma transforms_nil_right : ∀ a : Str, Transforms a [] a.length
  | [] => .nil
  | c :: as => by simpa using Transforms.del c (transforms_nil_right as)

/-- The distance the code computes is achieved by some edit script. -/
lemma lev_transforms : ∀ n (a b : Str), a.length + b.length = n →
    Transforms a b (levenshteinDistance a b) := by
  intro n
  induction n using Nat.strong_induction_on with
  | _ n ih =>
    intro a b hab
    cases a with
    | nil => simpa [lev_nil_left] using transforms_nil_left b
    | cons c as =>
      cases b with
      | nil => simpa [lev_nil_right] using transforms_nil_right (c :: as)
      | cons d bs =>
        rw [lev_cons_cons]
        by_cases hcd : c = d
        · rw [if_pos hcd]
          subst hcd
          exact .copy c (ih (as.length + bs.length) (by simp at hab; omega) as bs rfl)
        · rw [if_neg hcd]
          have hu := ih (as.length + bs.length) (by simp at hab; omega) as bs rfl
          have hv := ih (as.length + (d :: bs).length) (by simp at hab ⊢; omega) as (d :: bs) rfl
          have hw := ih ((c :: as).length + bs.length) (by simp at hab ⊢; omega) (c :: as) bs rfl
          set u := levenshteinDistance as bs with hu'
          set v := levenshteinDistance as (d :: bs) with hv'
          set w := levenshteinDistance (c :: as) bs with hw'
          rcases Nat.lt_trichotomy u (min v w) with h | h | h
          · have : 1 + min u (min v w) = u + 1 := by omega
            rw [this]
            exact .subst c d hu
          · rcases min_choice v w with h2 | h2
            · have : 1 + min u (min v w) = v + 1 := by omega
              rw [this]
              exact .del c hv
            · have : 1 + min u (min v w) = w + 1 := by omega
              rw [this]
              exact .ins d hw
          · rcases min_choice v w with h2 | h2
            · have : 1 + min u (min v w) = v + 1 := by omega
              rw [this]
              exact .del c hv
            · have : 1 + min u (min v w) = w + 1 := by omega
              rw [this]
              exact .ins d hw

/-- The distance the code computes is a lower bound on the cost of every edit
script. -/
lemma transforms_lev_le {a b : Str} {n : Nat} (h : Transforms a b n) :
    levenshteinDistance a b ≤ n := by
  induction h with
  | nil => simp [lev_nil_left]
  | copy c _ ihn =>
    rw [lev_cons_cons, if_pos rfl]
    exact ihn
  | subst c d _ ihn =>
    rw [lev_cons_cons]
    by_cases hcd : c = d
    · rw [if_pos hcd]; omega
    · rw [if_neg hcd]; omega
  | @ins as bs m d h ihn =>
    exact le_trans (lev_cons_right_le d as bs) (by omega)
  | @del as bs m c h ihn =>
    exact le_trans (lev_cons_left_le c as bs) (by omega)

lemma transforms_symm {a b : Str} {n : Nat} (h : Transforms a b n) : Transforms b a n := by
  induction h with
  | nil => exact .nil
  | copy c _ ihn => exact .copy c ihn
  | subst c d _ ihn => exact .subst d c ihn
  | ins d _ ihn => exact .del d ihn
  | del c _ ihn => exact .ins c ihn

lemma lev_symm (a b : Str) : levenshteinDistance a b = levenshteinDistance b a :=
  Nat.le_antisymm
    (transforms_lev_le (transforms_symm (lev_transforms (b.length + a.length) b a rfl)))
    (transforms_lev_le (transforms_symm (lev_transforms (a.length + b.length) a b rfl)))

lemma lev_self : ∀ a : Str, levenshteinDistance a a = 0
  | [] => rfl
  | c :: as => by rw [lev_cons_cons, if_pos rfl]; exact lev_self as

lemma transforms_append_copy {as bs : Str} {n : Nat} (c : Char)
    (h : Transforms as bs n) : Transforms (as ++ [c]) (bs ++ [c]) n := by
  induction h with
  | nil => exact .copy c .nil
  | copy e _ ih => exact .copy e ih
  | subst e f _ ih => exact .subst e f ih
  | ins f _ ih => exact .ins f ih
  | del e _ ih => exact .del e ih

lemma transforms_append_subst {as bs : Str} {n : Nat} (c d : Char)
    (h : Transforms as bs n) : Transforms (as ++ [c]) (bs ++ [d]) (n + 1) := by
  induction h with
  | nil => exact .subst c d .nil
  | copy e _ ih => exact .copy e ih
  | subst e f _ ih => exact .subst e f ih
  | ins f _ ih => exact .ins f ih
  | del e _ ih => exact .del e ih

lemma transforms_append_ins {as bs : Str} {n : Nat} (d : Char)
    (h : Transforms as bs n) : Transforms as (bs ++ [d]) (n + 1) := by
  induction h with
  | nil => exact .ins d .nil
  | copy e _ ih => exact .copy e ih
  | subst e f _ ih => exact .subst e f ih
  | ins f _ ih => exact .ins f ih
  | del e _ ih => exact .del e ih

lemma transforms_append_del {as bs : Str} {n : Nat} (c : Char)
    (h : Transforms as bs n) : Transforms (as ++ [c]) bs (n + 1) := by
  induction h with
  | nil => exact .del c .nil
  | copy e _ ih => exact .copy e ih
  | subst e f _ ih => exact .subst e f ih
  | ins f _ ih => exact .ins f ih
  | del e _ ih => exact .del e ih

lemma transforms_reverse {as bs : Str} {n : Nat} (h : Transforms as bs n) :
    Transforms as.reverse bs.reverse n := by
  induction h with
  | nil => exact .nil
  | copy e _ ih => simpa using transforms_append_copy e ih
  | subst e f _ ih => simpa using transforms_append_subst e f ih
  | ins f _ ih => simpa using transforms_append_ins f ih
  | del e _ ih => simpa using transforms_append_del e ih

lemma lev_reverse (a b : Str) :
    levenshteinDistance a.reverse b.reverse = levenshteinDistance a b := by
  refine Nat.le_antisymm
    (transforms_lev_le (transforms_reverse (lev_transforms (a.length + b.length) a b rfl)))
    ?_
  have h := transforms_reverse (lev_transforms (a.reverse.length + b.reverse.length)
    a.reverse b.reverse rfl)
  rw [List.reverse_reverse, List.reverse_reverse] at h
  exact transforms_lev_le h

/-- End-of-string recurrence: the cell equation filled into the source's DP
matrix, derived from the front recurrence by reversal. -/
lemma lev_append_append (x y : Str) (c d : Char) :
    levenshteinDistance (x ++ [c]) (y ++ [d]) =
      if d = c then levenshteinDistance x y
      else 1 + min (levenshteinDistance x y)
        (min (levenshteinDistance x (y ++ [d])) (levenshteinDistance (x ++ [c]) y)) := by
  have h1 : levenshteinDistance (x ++ [c]) (y ++ [d]) =
      levenshteinDistance (c :: x.reverse) (d :: y.reverse) := by
    rw [show c :: x.reverse = (x ++ [c]).reverse by simp,
      show d :: y.reverse = (y ++ [d]).reverse by simp, lev_reverse]
  rw [h1, lev_cons_cons]
  have h2 : levenshteinDistance x.reverse y.reverse = levenshteinDistance x y :=
    lev_reverse x y
  have h3 : levenshteinDistance x.reverse (d :: y.reverse) =
      levenshteinDistance x (y ++ [d]) := by
    rw [show d :: y.reverse = (y ++ [d]).reverse by simp, lev_reverse]
  have h4 : levenshteinDistance (c :: x.reverse) y.reverse =
      levenshteinDistance (x ++ [c]) y := by
    rw [show c :: x.reverse = (x ++ [c]).reverse by simp, lev_reverse]
  rw [h2, h3, h4]
  by_cases hcd : c = d
  · rw [if_pos hcd, if_pos hcd.symm]
  · rw [if_neg hcd, if_neg (Ne.symm hcd)]

/-- The inner `j` loop computes the distances from the prefixes of `a` to
the new `b`-prefix, given the previous row. -/
lemma levMatrixRowGo_spec (bc : Char) :
    ∀ (arest x y : Str),
      levMatrixRowGo bc arest
          ((List.range (arest.length + 1)).map
            (fun k => levenshteinDistance (x ++ arest.take k) y))
          (levenshteinDistance x (y ++ [bc])) =
        (List.range arest.length).map
          (fun k => levenshteinDistance (x ++ arest.take (k + 1)) (y ++ [bc]))
  | [], x, y => by simp [levMatrixRowGo]
  | ac :: arest, x, y => by
    have hexp : (List.range ((ac :: arest).length + 1)).map
        (fun k => levenshteinDistance (x ++ (ac :: arest).take k) y) =
        levenshteinDistance x y ::
          (List.range (arest.length + 1)).map
            (fun k => levenshteinDistance ((x ++ [ac]) ++ arest.take k) y) := by
      rw [show (ac :: arest).length + 1 = arest.length + 1 + 1 from rfl,
        List.range_succ_eq_map, List.map_cons, List.map_map]
      congr 1
      · simp
      · apply List.map_congr_left
        intro k hk
        simp [List.take_succ_cons]
    have hexp2 : (List.range (ac :: arest).length).map
        (fun k => levenshteinDistance (x ++ (ac :: arest).take (k + 1)) (y ++ [bc])) =
        levenshteinDistance (x ++ [ac]) (y ++ [bc]) ::
          (List.range arest.length).map
            (fun k => levenshteinDistance ((x ++ [ac]) ++ arest.take (k + 1)) (y ++ [bc])) := by
      rw [show (ac :: arest).length = arest.length + 1 from rfl,
        List.range_succ_eq_map, List.map_cons, List.map_map]
      simp [List.take_succ_cons, Function.comp]
    rw [hexp, hexp2]
    simp only [levMatrixRowGo]
    have hh : ((List.range (arest.length + 1)).map
        (fun k => levenshteinDistance ((x ++ [ac]) ++ arest.take k) y)).headD 0 =
        levenshteinDistance (x ++ [ac]) y := by
      rw [List.range_succ_eq_map]
      simp
    rw [hh]
    rw [← lev_append_append x y ac bc]
    exact congrArg _ (levMatrixRowGo_spec bc arest (x ++ [ac]) y)

/-- The outer `i` loop turns the row of distances to `y` into the row of
distances to `y ++ brest`. -/
lemma levMatrixGo_spec (a : Str) :
    ∀ (brest y : Str),
      levMatrixGo a brest
          ((List.range (a.length + 1)).map
            (fun j => levenshteinDistance (a.take j) y))
          y.length =
        (List.range (a.length + 1)).map
          (fun j => levenshteinDistance (a.take j) (y ++ brest))
  | [], y => by simp [levMatrixGo]
  | bc :: brest, y => by
    rw [levMatrixGo]
    have hrow : levMatrixRow bc a
        ((List.range (a.length + 1)).map (fun j => levenshteinDistance (a.take j) y))
        (y.length + 1) =
        (List.range (a.length + 1)).map
          (fun j => levenshteinDistance (a.take j) (y ++ [bc])) := by
      unfold levMatrixRow
      have hspec := levMatrixRowGo_spec bc a [] y
      simp only [List.nil_append, lev_nil_left, List.length_append,
        List.length_singleton] at hspec
      rw [hspec]
      rw [List.range_succ_eq_map, List.map_cons, List.map_map]
      simp [Function.comp, lev_nil_left]
    rw [hrow]
    have hIH := levMatrixGo_spec a brest (y ++ [bc])
    simp only [List.length_append, List.length_singleton] at hIH
    rw [hIH]
    simp

/-- The source's matrix algorithm computes exactly the recurrence form of
the distance, so the two embeddings agree on every input. -/
lemma levenshteinDistanceMatrix_eq (a b : Str) :
    levenshteinDistanceMatrix a b = levenshteinDistance a b := by
  unfold levenshteinDistanceMatrix
  by_cases ha : a.length = 0
  · rw [if_pos ha, List.length_eq_zero.mp ha, lev_nil_left]
  · rw [if_neg ha]
    by_cases hb : b.length = 0
    · rw [if_pos hb, List.length_eq_zero.mp hb, lev_nil_right]
    · rw [if_neg hb]
      have h0 : List.range (a.length + 1) =
          (List.range (a.length + 1)).map
            (fun j => levenshteinDistance (a.take j) ([] : Str)) := by
        have hcongr : ∀ j ∈ List.range (a.length + 1),
            j = levenshteinDistance (a.take j) ([] : Str) := by
          intro j hj
          rw [lev_nil_right, List.length_take]
          exact (min_eq_left (by
            simpa [Nat.lt_succ_iff] using List.mem_range.mp hj)).symm
        calc List.range (a.length + 1)
            = (List.range (a.length + 1)).map id := by simp
        _ = _ := List.map_congr_left hcongr
      rw [h0]
      have hgo := levMatrixGo_spec a b []
      simp only [List.length_nil, List.nil_append] at hgo
      rw [hgo]
      have hlt : a.length < ((List.range (a.length + 1)).map
          (fun j => levenshteinDistance (a.take j) b)).length := by
        simp
      rw [List.getD_eq_getElem _ _ hlt]
      simp [List.take_length]


/-!
## Stable sort (model of `Array.prototype.sort` with a comparator)

The engine sorts results with JavaScript's stable sort.  We model it as a
stable insertion sort parameterised by the boolean relation
`le a b = (comparator a b ≤ 0)`; an element is inserted before the first
already-placed element it compares `le` to, which preserves the original
order of ties exactly as a stable sort does.
-/

lemma insertSorted_perm (le : α → α → Bool) (x : α) :
    ∀ l : List α, List.Perm (insertSorted le x l) (x :: l)
  | [] => List.Perm.refl _
  | h :: t => by
    by_cases hle : le x h
    · rw [insertSorted, if_pos hle]
    · rw [insertSorted, if_neg hle]
      exact ((insertSorted_perm le x t).cons h).trans (List.Perm.swap x h t)

lemma sortBy_perm (le : α → α → Bool) : ∀ l : List α, List.Perm (sortBy le l) l
  | [] => List.Perm.refl _
  | x :: xs => (insertSorted_perm le x (sortBy le xs)).trans ((sortBy_perm le xs).cons x)

lemma mem_sortBy {le : α → α → Bool} {l : List α} {x : α} :
    x ∈ sortBy le l ↔ x ∈ l :=
  (sortBy_perm le l).mem_iff

lemma insertSorted_pairwise {le : α → α → Bool} {x : α} {l : List α}
    (total : ∀ a ∈ x :: l, ∀ b ∈ x :: l, le a b ∨ le b a)
    (trans : ∀ a ∈ x :: l, ∀ b ∈ x :: l, ∀ c ∈ x :: l, le a b → le b c → le a c)
    (hl : l.Pairwise (fun a b => le a b = true)) :
    (insertSorted le x l).Pairwise (fun a b => le a b = true) := by
  induction l with
  | nil => simp [insertSorted]
  | cons h t iht =>
    rcases List.pairwise_cons.mp hl with ⟨hht, htp⟩
    have hsub : ∀ a, a ∈ x :: t → a ∈ x :: h :: t := by
      intro a ha
      rcases List.mem_cons.mp ha with ha | ha
      · exact List.mem_cons.mpr (Or.inl ha)
      · exact List.mem_cons.mpr (Or.inr (List.mem_cons.mpr (Or.inr ha)))
    by_cases hxh : le x h
    · rw [insertSorted, if_pos hxh]
      refine List.pairwise_cons.mpr ⟨?_, hl⟩
      intro b hb
      rcases List.mem_cons.mp hb with hb | hb
      · subst hb
        exact hxh
      · exact trans x (by simp) h (by simp) b (by simp [hb]) hxh (hht b hb)
    · rw [insertSorted, if_neg hxh]
      refine List.pairwise_cons.mpr ⟨?_, ?_⟩
      · intro b hb
        rcases List.mem_cons.mp ((insertSorted_perm le x t).mem_iff.mp hb) with hb | hb
        · rcases total x (by simp) h (by simp) with hc | hc
          · exact absurd hc hxh
          · rw [hb]
            exact hc
        · exact hht b hb
      · exact iht
          (fun a ha b hb => total a (hsub a ha) b (hsub b hb))
          (fun a ha b hb c hc => trans a (hsub a ha) b (hsub b hb) c (hsub c hc))
          htp

/-- Sorting with a comparator that is total and transitive on the list's
elements yields a list that is pairwise ordered by it. -/
lemma sortBy_pairwise {le : α → α → Bool} {l : List α}
    (total : ∀ a ∈ l, ∀ b ∈ l, le a b ∨ le b a)
    (trans : ∀ a ∈ l, ∀ b ∈ l, ∀ c ∈ l, le a b → le b c → le a c) :
    (sortBy le l).Pairwise (fun a b => le a b = true) := by
  induction l with
  | nil => simp [sortBy]
  | cons x xs ihx =>
    rw [sortBy]
    have hmem : ∀ a, a ∈ x :: sortBy le xs → a ∈ x :: xs := by
      intro a ha
      rcases List.mem_cons.mp ha with ha | ha
      · simp [ha]
      · simp [mem_sortBy.mp ha]
    have hsub : ∀ a, a ∈ xs → a ∈ x :: xs := by
      intro a ha
      exact List.mem_cons.mpr (Or.inr ha)
    exact insertSorted_pairwise
      (fun a ha b hb => total a (hmem a ha) b (hmem b hb))
      (fun a ha b hb c hc => trans a (hmem a ha) b (hmem b hb) c (hmem c hc))
      (ihx (fun a ha b hb => total a (hsub a ha) b (hsub b hb))
        (fun a ha b hb c hc => trans a (hsub a ha) b (hsub b hb) c (hsub c hc)))

lemma strLe_total : ∀ s t : Str, strLe s t ∨ strLe t s
  | [], _ => Or.inl rfl
  | _ :: _, [] => Or.inr rfl
  | c :: cs, d :: ds => by
    by_cases hcd : c = d
    · subst hcd
      simpa [strLe] using strLe_total cs ds
    · rcases lt_trichotomy c d with h | h | h
      · exact Or.inl (by simp [strLe, hcd, h])
      · exact absurd h hcd
      · refine Or.inr (by simp [strLe, Ne.symm hcd, h])

/-!
## Claims C1 - C3 : circuit breaker
-/

/-- C1, as stated, is false on the code: a success while CLOSED does not
reset the failure count (`execute` only zeroes `failures` on a HALF_OPEN
success), so four failures, then a success, then a fifth failure open the
circuit even though the consecutive-since-last-success streak is 1.  The
default breaker (threshold 5, timeout 60000, created at time 0) ends OPEN
after the call sequence fail, fail, fail, fail, success, fail, refuting
"five failures interleaved with a success do not open the circuit". -/
theorem C1_counterexample :
    (runCalls (newCircuitBreaker 5 60000 0)
      [(0, false), (0, false), (0, false), (0, false), (0, true), (0, false)]).state
      = CBState.OPEN := by decide

/-- C1 (amended): from CLOSED, a failing call increments the cumulative
failure count and transitions to OPEN exactly when that count (failures since
the count was last zeroed at construction, manual reset, or a successful
HALF_OPEN probe) reaches the threshold; a successful call while CLOSED leaves
the breaker, in particular its failure count, completely unchanged. -/
theorem C1_amended (cb : CircuitBreaker) (now : Nat) (h : cb.state = .CLOSED) :
    ((cb.execute now false).fst.state = .OPEN ↔ cb.threshold ≤ cb.failures + 1) ∧
    (cb.execute now false).fst.failures = cb.failures + 1 ∧
    (cb.execute now true).fst = cb := by
  refine ⟨?_, ?_, ?_⟩ <;>
    simp only [CircuitBreaker.execute, CircuitBreaker.gate, h, CircuitBreaker.onFailure,
      CircuitBreaker.onSuccess] <;>
    by_cases hth : cb.threshold ≤ cb.failures + 1 <;>
    simp [hth, h]

/-- Witness for C1_amended at a concrete breaker: CLOSED with 4 accumulated
failures and threshold 5; the next failure opens the circuit. -/
theorem C1_amended_witness :
    ((CircuitBreaker.execute ⟨4, 5, 60000, .CLOSED, 0⟩ 0 false).fst.state = .OPEN ↔
        5 ≤ 4 + 1) ∧
    (CircuitBreaker.execute ⟨4, 5, 60000, .CLOSED, 0⟩ 0 false).fst.failures = 4 + 1 ∧
    (CircuitBreaker.execute ⟨4, 5, 60000, .CLOSED, 0⟩ 0 true).fst = ⟨4, 5, 60000, .CLOSED, 0⟩ :=
  C1_amended ⟨4, 5, 60000, .CLOSED, 0⟩ 0 rfl

/-- C2: while the breaker is OPEN, a call strictly before `nextAttempt` is
rejected with the "temporarily unavailable" outcome, the wrapped operation is
never invoked (`gate` returns none) and the breaker is unchanged; a call at
or after `nextAttempt` first moves the state to HALF_OPEN and invokes the
wrapped operation (the outcome mirrors the operation's own result instead of
being a rejection). -/
theorem C2_open_gate (cb : CircuitBreaker) (now : Nat) (ok : Bool) (h : cb.state = .OPEN) :
    (now < cb.nextAttempt →
      cb.gate now = none ∧ cb.execute now ok = (cb, .rejected)) ∧
    (cb.nextAttempt ≤ now →
      cb.gate now = some { cb with state := .HALF_OPEN } ∧
      (cb.execute now ok).snd = (if ok then .succeeded else .failed)) := by
  constructor
  · intro hlt
    have hadm : cb.gate now = none := by
      simp [CircuitBreaker.gate, h, hlt]
    exact ⟨hadm, by simp [CircuitBreaker.execute, hadm]⟩
  · intro hge
    have hadm : cb.gate now = some { cb with state := .HALF_OPEN } := by
      simp [CircuitBreaker.gate, h, Nat.not_lt.mpr hge]
    refine ⟨hadm, ?_⟩
    cases ok <;> simp [CircuitBreaker.execute, hadm]

/-- Witness for C2_open_gate: an OPEN breaker with resume time 100 rejects at
time 99 and admits (via HALF_OPEN) at time 100. -/
theorem C2_open_gate_witness :
    (CircuitBreaker.gate ⟨5, 5, 60000, .OPEN, 100⟩ 99 = none ∧
      CircuitBreaker.execute ⟨5, 5, 60000, .OPEN, 100⟩ 99 true =
        (⟨5, 5, 60000, .OPEN, 100⟩, .rejected)) ∧
    (CircuitBreaker.gate ⟨5, 5, 60000, .OPEN, 100⟩ 100 =
        some ⟨5, 5, 60000, .HALF_OPEN, 100⟩ ∧
      (CircuitBreaker.execute ⟨5, 5, 60000, .OPEN, 100⟩ 100 true).snd =
        (if true then .succeeded else .failed)) :=
  ⟨(C2_open_gate ⟨5, 5, 60000, .OPEN, 100⟩ 99 true rfl).1 (by decide),
   (C2_open_gate ⟨5, 5, 60000, .OPEN, 100⟩ 100 true rfl).2 (by decide)⟩

/-- C3, as stated, is false on the code: the administrative `POST /reset`
endpoint guards the reset with `if (circuitBreaker.state === 'OPEN')`, so
invoking it on a HALF_OPEN breaker (here with 3 accumulated failures) leaves
the breaker HALF_OPEN with its failure count intact instead of forcing
CLOSED/zero. -/
theorem C3_counterexample :
    resetEndpoint ⟨3, 5, 60000, .HALF_OPEN, 0⟩ = ⟨3, 5, 60000, .HALF_OPEN, 0⟩ ∧
    (⟨3, 5, 60000, .HALF_OPEN, 0⟩ : CircuitBreaker).state ≠ .CLOSED ∧
    (⟨3, 5, 60000, .HALF_OPEN, 0⟩ : CircuitBreaker).failures ≠ 0 := by decide

/-- C3 (amended): the `reset()` method itself forces CLOSED with zero
failures from any state, but the administrative endpoint invokes it only when
the state is OPEN; when the breaker is CLOSED or HALF_OPEN the endpoint
changes nothing (in particular a CLOSED breaker keeps any nonzero failure
count). -/
theorem C3_amended (cb : CircuitBreaker) :
    cb.reset.state = .CLOSED ∧ cb.reset.failures = 0 ∧
    (cb.state = .OPEN → resetEndpoint cb = cb.reset) ∧
    (cb.state ≠ .OPEN → resetEndpoint cb = cb) := by
  refine ⟨rfl, rfl, ?_, ?_⟩
  · intro h
    simp [resetEndpoint, h]
  · intro h
    simp [resetEndpoint, h]

/-- Witness for C3_amended: the endpoint resets an OPEN breaker and ignores a
HALF_OPEN one. -/
theorem C3_amended_witness :
    CircuitBreaker.reset ⟨5, 5, 60000, .OPEN, 77⟩ = ⟨0, 5, 60000, .CLOSED, 77⟩ ∧
    resetEndpoint ⟨5, 5, 60000, .OPEN, 77⟩ = CircuitBreaker.reset ⟨5, 5, 60000, .OPEN, 77⟩ ∧
    resetEndpoint ⟨3, 5, 60000, .HALF_OPEN, 0⟩ = ⟨3, 5, 60000, .HALF_OPEN, 0⟩ :=
  ⟨by decide,
   (C3_amended ⟨5, 5, 60000, .OPEN, 77⟩).2.2.1 rfl,
   (C3_amended ⟨3, 5, 60000, .HALF_OPEN, 0⟩).2.2.2 (by decide)⟩

/-!
## Claim C9 : Levenshtein distance is the minimal edit count
-/

/-- C9: the source's matrix algorithm agrees with the recurrence form, and
`levenshteinDistance` returns the minimum number of single-character
insertions, deletions and substitutions transforming one string into the
other — the computed value is achieved by an edit script (`Transforms`) and
lower-bounds every edit script — and consequently the distance from any
string to itself is 0, the function is symmetric, and
distance("kitten","sitting") = 3. -/
theorem C9_levenshtein_metric :
    (∀ a b : Str, levenshteinDistanceMatrix a b = levenshteinDistance a b) ∧
    (∀ a b : Str, Transforms a b (levenshteinDistance a b)) ∧
    (∀ (a b : Str) (n : Nat), Transforms a b n → levenshteinDistance a b ≤ n) ∧
    (∀ a : Str, levenshteinDistance a a = 0) ∧
    (∀ a b : Str, levenshteinDistance a b = levenshteinDistance b a) ∧
    levenshteinDistance "kitten".data "sitting".data = 3 :=
  ⟨levenshteinDistanceMatrix_eq,
   fun a b => lev_transforms (a.length + b.length) a b rfl,
   fun _ _ _ h => transforms_lev_le h,
   lev_self,
   lev_symm,
   by decide⟩

/-- Witness for C9_levenshtein_metric: the two-edit-step script deleting `a`
from "ab" has cost 1, and the theorem bounds the computed distance by it. -/
theorem C9_levenshtein_metric_witness :
    Transforms "ab".data "b".data 1 ∧ levenshteinDistance "ab".data "b".data ≤ 1 := by
  have h : Transforms "ab".data "b".data 1 := by
    show Transforms ['a', 'b'] ['b'] 1
    exact Transforms.del 'a' (Transforms.copy 'b' Transforms.nil)
  exact ⟨h, C9_levenshtein_metric.2.2.1 _ _ _ h⟩

/-!
## Claims C4 - C5 : episode search
-/

lemma strLe_trans : ∀ {s t u : Str}, strLe s t → strLe t u → strLe s u
  | [], _, _, _, _ => rfl
  | c :: cs, d :: ds, e :: es, h1, h2 => by
    by_cases hcd : c = d <;> by_cases hde : d = e
    · subst hcd; subst hde
      simp only [strLe, if_pos rfl] at h1 h2 ⊢
      exact strLe_trans h1 h2
    · subst hcd
      simpa [strLe, hde] using h2
    · subst hde
      simpa [strLe, hcd] using h1
    · simp only [strLe, if_neg hcd, decide_eq_true_eq] at h1
      simp only [strLe, if_neg hde, decide_eq_true_eq] at h2
      have hce : c < e := lt_trans h1 h2
      simp [strLe, show c ≠ e from ne_of_lt hce, hce]

lemma mem_exactResults {db : List Episode} {q : Str} {o : EpisodeSearchOptions}
    {r : SearchResult} :
    r ∈ exactResults db q o ↔
      ∃ ep ∈ db, exactQueryMatch q ep ∧ matchesFilters o ep ∧
        r = ⟨ep, .exact, none⟩ := by
  simp only [exactResults, List.mem_map, List.mem_filter, Bool.and_eq_true]
  constructor
  · rintro ⟨ep, ⟨hdb, hq, hf⟩, hr⟩
    exact ⟨ep, hdb, hq, hf, hr.symm⟩
  · rintro ⟨ep, hdb, hq, hf, hr⟩
    exact ⟨ep, ⟨hdb, hq, hf⟩, hr.symm⟩

lemma mem_fuzzyResults {db : List Episode} {q : Str} {o : EpisodeSearchOptions}
    {r : SearchResult} :
    r ∈ fuzzyResults db q o ↔
      ∃ ep ∈ db, matchesFilters o ep ∧
        minWordDistance (strLower q) ep.title ≤ o.maxDistance ∧
        r = ⟨ep, .fuzzy, some (minWordDistance (strLower q) ep.title)⟩ := by
  simp only [fuzzyResults, List.mem_map, mem_sortBy, List.mem_filter, decide_eq_true_eq]
  constructor
  · rintro ⟨x, ⟨⟨ep, ⟨hdb, hf⟩, heq⟩, hd⟩, hr⟩
    subst heq
    exact ⟨ep, hdb, hf, hd, hr.symm⟩
  · rintro ⟨ep, hdb, hf, hd, hr⟩
    exact ⟨(ep, minWordDistance (strLower q) ep.title),
      ⟨⟨ep, ⟨hdb, hf⟩, rfl⟩, hd⟩, hr.symm⟩

lemma matchType_exactResults {db : List Episode} {q : Str} {o : EpisodeSearchOptions}
    {r : SearchResult} (h : r ∈ exactResults db q o) : r.matchType = .exact := by
  rcases mem_exactResults.mp h with ⟨ep, _, _, _, hr⟩
  rw [hr]

lemma matchType_fuzzyResults {db : List Episode} {q : Str} {o : EpisodeSearchOptions}
    {r : SearchResult} (h : r ∈ fuzzyResults db q o) : r.matchType = .fuzzy := by
  rcases mem_fuzzyResults.mp h with ⟨ep, _, _, _, hr⟩
  rw [hr]

lemma searchEpisodesPre_exact_branch {db : List Episode} {q : Str}
    {o : EpisodeSearchOptions}
    (h : ¬(exactResults db q o = [] ∧ q ≠ [] ∧ strTrim q ≠ [])) :
    searchEpisodesPre db q o = sortBy resultLe (exactResults db q o) := by
  simp only [searchEpisodesPre]
  rw [if_neg h]

lemma searchEpisodesPre_fuzzy_branch {db : List Episode} {q : Str}
    {o : EpisodeSearchOptions}
    (h1 : exactResults db q o = []) (h2 : strTrim q ≠ []) :
    searchEpisodesPre db q o = sortBy resultLe (fuzzyResults db q o) := by
  have hq : q ≠ [] := by
    intro hq
    exact h2 (by rw [hq]; rfl)
  simp only [searchEpisodesPre]
  rw [if_pos ⟨h1, hq, h2⟩]

/-- C4, as stated, is false on the code: with the single episode titled "x"
and the whitespace query " ", the exact pass is empty, the query is
non-empty, the episode passes the filters, and the fuzzy acceptance
condition holds (minimum word distance 1 ≤ 3) — so the claim requires a
fuzzy-tagged result — yet `searchEpisodes` returns nothing, because the code
additionally requires `query.trim().length > 0` before running the fuzzy
fallback. -/
theorem C4_counterexample :
    exactResults [epTiny] " ".data epDefaults = [] ∧
    " ".data ≠ ([] : Str) ∧
    matchesFilters epDefaults epTiny = true ∧
    minWordDistance (strLower " ".data) epTiny.title ≤ epDefaults.maxDistance ∧
    searchEpisodes [epTiny] " ".data epDefaults = [] := by decide

/-- C4 (amended): the fuzzy fallback runs if and only if the exact substring
pass returns zero episodes and the query contains a non-whitespace character
(`query.trim()` non-empty); when it runs, a filtered episode is accepted
exactly when the minimum Levenshtein distance between the lower-cased query
and the whitespace-delimited words of its lower-cased title is at most the
threshold (default 3), and accepted episodes are tagged fuzzy with that
distance; whenever any episode matches exactly, only exact-tagged results
are returned. -/
theorem C4_amended (db : List Episode) (q : Str) (o : EpisodeSearchOptions) :
    (¬(exactResults db q o = [] ∧ q ≠ [] ∧ strTrim q ≠ []) →
      searchEpisodesPre db q o = sortBy resultLe (exactResults db q o)) ∧
    (exactResults db q o = [] → strTrim q ≠ [] →
      searchEpisodesPre db q o = sortBy resultLe (fuzzyResults db q o)) ∧
    (∀ r, r ∈ fuzzyResults db q o ↔
      ∃ ep ∈ db, matchesFilters o ep ∧
        minWordDistance (strLower q) ep.title ≤ o.maxDistance ∧
        r = ⟨ep, .fuzzy, some (minWordDistance (strLower q) ep.title)⟩) ∧
    (exactResults db q o ≠ [] → ∀ r ∈ searchEpisodes db q o, r.matchType = .exact) := by
  refine ⟨searchEpisodesPre_exact_branch, searchEpisodesPre_fuzzy_branch,
    fun r => mem_fuzzyResults, ?_⟩
  intro hex r hr
  have hr1 : r ∈ searchEpisodesPre db q o := List.mem_of_mem_take hr
  have hpre : searchEpisodesPre db q o = sortBy resultLe (exactResults db q o) :=
    searchEpisodesPre_exact_branch (by
      rintro ⟨h1, -, -⟩
      exact hex h1)
  rw [hpre] at hr1
  exact matchType_exactResults (mem_sortBy.mp hr1)

/-- Witness for C4_amended: both branches, the fuzzy membership
characterisation and exact-suppression, at concrete corpora. -/
theorem C4_amended_witness :
    (searchEpisodesPre [epLinux] "linux".data epDefaults =
      sortBy resultLe (exactResults [epLinux] "linux".data epDefaults)) ∧
    (searchEpisodesPre [epLinux] "linx".data epDefaults =
      sortBy resultLe (fuzzyResults [epLinux] "linx".data epDefaults)) ∧
    (⟨epLinux, .fuzzy, some 1⟩ : SearchResult) ∈
      fuzzyResults [epLinux] "linx".data epDefaults ∧
    (⟨epLinux, .exact, none⟩ : SearchResult).matchType = .exact :=
  ⟨(C4_amended [epLinux] "linux".data epDefaults).1 (by decide),
   (C4_amended [epLinux] "linx".data epDefaults).2.1 (by decide) (by decide),
   ((C4_amended [epLinux] "linx".data epDefaults).2.2.1 _).mpr
     ⟨epLinux, by decide, by decide, by decide, by decide⟩,
   (C4_amended [epLinux] "linux".data epDefaults).2.2.2 (by decide)
     ⟨epLinux, .exact, none⟩ (by decide)⟩

lemma resultLe_eq_of_fuzzy {a b : SearchResult} (ha : a.matchType = .fuzzy)
    (hb : b.matchType = .fuzzy) :
    resultLe a b = (if resultDist a = resultDist b then strLe b.ep.date a.ep.date
      else decide (resultDist a < resultDist b)) := by
  unfold resultLe
  rw [ha, hb]
  simp

lemma resultLe_eq_of_not_fuzzy {a b : SearchResult}
    (h : ¬(a.matchType = MatchType.fuzzy ∧ b.matchType = MatchType.fuzzy)) :
    resultLe a b = strLe b.ep.date a.ep.date := by
  unfold resultLe
  have hc : (decide (a.matchType = MatchType.fuzzy) &&
      decide (b.matchType = MatchType.fuzzy)) = false := by
    rcases Decidable.not_and_iff_or_not.mp h with h1 | h1 <;> simp [h1]
  rw [hc]
  simp

lemma resultLe_total (a b : SearchResult) : resultLe a b ∨ resultLe b a := by
  by_cases hf : a.matchType = MatchType.fuzzy ∧ b.matchType = MatchType.fuzzy
  · rcases hf with ⟨ha, hb⟩
    rw [resultLe_eq_of_fuzzy ha hb, resultLe_eq_of_fuzzy hb ha]
    by_cases heq : resultDist a = resultDist b
    · rw [if_pos heq, if_pos heq.symm]
      exact strLe_total _ _
    · rw [if_neg heq, if_neg (Ne.symm heq)]
      rcases Nat.lt_or_ge (resultDist a) (resultDist b) with h | h
      · exact Or.inl (by simpa using h)
      · exact Or.inr (by simpa using Nat.lt_of_le_of_ne h (Ne.symm heq))
  · rw [resultLe_eq_of_not_fuzzy hf,
      resultLe_eq_of_not_fuzzy (fun h2 => hf ⟨h2.2, h2.1⟩)]
    exact strLe_total _ _

lemma resultLe_trans_homo (a b c : SearchResult) (hab : a.matchType = b.matchType)
    (hbc : b.matchType = c.matchType) :
    resultLe a b → resultLe b c → resultLe a c := by
  intro h1 h2
  by_cases ha : a.matchType = MatchType.fuzzy
  · have hb : b.matchType = MatchType.fuzzy := hab ▸ ha
    have hc : c.matchType = MatchType.fuzzy := hbc ▸ hb
    rw [resultLe_eq_of_fuzzy ha hb] at h1
    rw [resultLe_eq_of_fuzzy hb hc] at h2
    rw [resultLe_eq_of_fuzzy ha hc]
    by_cases e1 : resultDist a = resultDist b <;>
      by_cases e2 : resultDist b = resultDist c
    · rw [if_pos e1] at h1
      rw [if_pos e2] at h2
      rw [if_pos (e1.trans e2)]
      exact strLe_trans h2 h1
    · rw [if_neg e2] at h2
      rw [if_neg (fun h => e2 (e1.symm.trans h))]
      simp only [decide_eq_true_eq] at h2 ⊢
      omega
    · rw [if_neg e1] at h1
      rw [if_neg (fun h => e1 (h.trans e2.symm))]
      simp only [decide_eq_true_eq] at h1 ⊢
      omega
    · rw [if_neg e1] at h1
      rw [if_neg e2] at h2
      simp only [decide_eq_true_eq] at h1 h2
      rw [if_neg (by omega : ¬ resultDist a = resultDist c)]
      simp only [decide_eq_true_eq]
      omega
  · have hb : ¬ b.matchType = MatchType.fuzzy := fun h => ha (hab ▸ h)
    rw [resultLe_eq_of_not_fuzzy (fun h => ha h.1)] at h1
    rw [resultLe_eq_of_not_fuzzy (fun h => hb h.1)] at h2
    rw [resultLe_eq_of_not_fuzzy (fun h => ha h.1)]
    exact strLe_trans h2 h1

lemma searchEpisodesPre_homo (db : List Episode) (q : Str) (o : EpisodeSearchOptions) :
    ∀ a ∈ searchEpisodesPre db q o, ∀ b ∈ searchEpisodesPre db q o,
      a.matchType = b.matchType := by
  intro a ha b hb
  simp only [searchEpisodesPre] at ha hb
  by_cases hcond : exactResults db q o = [] ∧ q ≠ [] ∧ strTrim q ≠ []
  · rw [if_pos hcond] at ha hb
    rw [matchType_fuzzyResults (mem_sortBy.mp ha),
      matchType_fuzzyResults (mem_sortBy.mp hb)]
  · rw [if_neg hcond] at ha hb
    rw [matchType_exactResults (mem_sortBy.mp ha),
      matchType_exactResults (mem_sortBy.mp hb)]

lemma searchEpisodesPre_sorted (db : List Episode) (q : Str) (o : EpisodeSearchOptions) :
    (searchEpisodesPre db q o).Pairwise (fun a b => resultLe a b = true) := by
  have hhomo := searchEpisodesPre_homo db q o
  simp only [searchEpisodesPre] at hhomo ⊢
  refine sortBy_pairwise (fun a _ b _ => ?_) (fun a ha b hb c hc h1 h2 => ?_)
  · simpa using resultLe_total a b
  · exact resultLe_trans_homo a b c
      (hhomo a (mem_sortBy.mpr ha) b (mem_sortBy.mpr hb))
      (hhomo b (mem_sortBy.mpr hb) c (mem_sortBy.mpr hc)) h1 h2

/-- C5: the returned list is the `limit`-prefix of the fully sorted result
set (truncation happens only after the sort); the full sorted list is
pairwise ordered by the code's comparator; a single response never mixes
match types; and consequently every returned pair is ordered by ascending
distance then descending date when fuzzy, and by descending date alone when
exact. -/
theorem C5_ordering (db : List Episode) (q : Str) (o : EpisodeSearchOptions) :
    searchEpisodes db q o = (searchEpisodesPre db q o).take o.limit ∧
    (searchEpisodesPre db q o).Pairwise (fun a b => resultLe a b = true) ∧
    (∀ a ∈ searchEpisodesPre db q o, ∀ b ∈ searchEpisodesPre db q o,
      a.matchType = b.matchType) ∧
    (searchEpisodes db q o).Pairwise (fun a b =>
      (a.matchType = .fuzzy ∧ b.matchType = .fuzzy ∧
        (resultDist a < resultDist b ∨
          (resultDist a = resultDist b ∧ strLe b.ep.date a.ep.date = true))) ∨
      (a.matchType = .exact ∧ b.matchType = .exact ∧
        strLe b.ep.date a.ep.date = true)) := by
  refine ⟨rfl, searchEpisodesPre_sorted db q o, searchEpisodesPre_homo db q o, ?_⟩
  have hsorted : (searchEpisodes db q o).Pairwise (fun a b => resultLe a b = true) :=
    (searchEpisodesPre_sorted db q o).sublist (List.take_sublist _ _)
  refine List.Pairwise.imp_of_mem (fun {a b} ha hb hle => ?_) hsorted
  have hhomo := searchEpisodesPre_homo db q o a (List.mem_of_mem_take ha)
    b (List.mem_of_mem_take hb)
  by_cases hma : a.matchType = MatchType.fuzzy
  · have hmb : b.matchType = .fuzzy := hhomo ▸ hma
    rw [resultLe_eq_of_fuzzy hma hmb] at hle
    refine Or.inl ⟨hma, hmb, ?_⟩
    by_cases heq : resultDist a = resultDist b
    · rw [if_pos heq] at hle
      exact Or.inr ⟨heq, hle⟩
    · rw [if_neg heq] at hle
      exact Or.inl (by simpa using hle)
  · have hex : a.matchType = MatchType.exact := by
      rcases h2 : a.matchType with _ | _
      · rfl
      · exact absurd h2 hma
    have hmb : b.matchType = .exact := hhomo ▸ hex
    rw [resultLe_eq_of_not_fuzzy (fun h => hma h.1)] at hle
    exact Or.inr ⟨hex, hmb, hle⟩

/-- Witness for C5_ordering: the mixed-date corpus sorted exact response and
a concrete homogeneity instance. -/
theorem C5_ordering_witness :
    searchEpisodes [epLinux, epPasta] "o".data epDefaults =
      (searchEpisodesPre [epLinux, epPasta] "o".data epDefaults).take 20 ∧
    (⟨epPasta, .exact, none⟩ : SearchResult).matchType =
      (⟨epLinux, .exact, none⟩ : SearchResult).matchType :=
  ⟨(C5_ordering [epLinux, epPasta] "o".data epDefaults).1,
   (C5_ordering [epLinux, epPasta] "o".data epDefaults).2.2.1
     ⟨epPasta, .exact, none⟩ (by decide) ⟨epLinux, .exact, none⟩ (by decide)⟩

/-!
## Claim C6 : host search
-/

lemma searchHosts_exact_branch {db : List Host} {q : Str} {maxD : Nat}
    (h : ∃ x ∈ db, hostExactMatch (strLower q) x) :
    searchHosts db q maxD =
      (db.filter (hostExactMatch (strLower q))).map
        (fun x => (⟨x, .exact, none⟩ : HostSearchResult)) := by
  rcases h with ⟨x, hdb, hx⟩
  have hne : (db.filter (hostExactMatch (strLower q))).map
      (fun x => (⟨x, .exact, none⟩ : HostSearchResult)) ≠ [] := by
    intro hnil
    rw [List.map_eq_nil_iff] at hnil
    exact absurd hx ((List.filter_eq_nil_iff.mp hnil) x hdb)
  simp only [searchHosts]
  rw [if_pos hne]

lemma searchHosts_fuzzy_branch {db : List Host} {q : Str} {maxD : Nat}
    (h : ¬ ∃ x ∈ db, hostExactMatch (strLower q) x) :
    searchHosts db q maxD =
      (sortBy (fun a b => decide (a.snd ≤ b.snd))
          ((db.map (fun x => (x, hostMinDist (strLower q) x))).filter
            (fun r => r.snd ≤ maxD))).map
        (fun r => ⟨r.fst, .fuzzy, some r.snd⟩) := by
  have hnil : (db.filter (hostExactMatch (strLower q))).map
      (fun x => (⟨x, .exact, none⟩ : HostSearchResult)) = [] := by
    rw [List.map_eq_nil_iff, List.filter_eq_nil_iff]
    intro x hx hmatch
    exact h ⟨x, hx, hmatch⟩
  simp only [searchHosts]
  rw [hnil, if_neg (by simp)]

/-- C6: `searchHosts` never mixes match types: when some host's name or email
contains the query case-insensitively, exactly the exact substring hits are
returned tagged `exact`; otherwise a host is returned (tagged `fuzzy`) iff
the minimum of the distances from the lower-cased query to its lower-cased
name and email is within the threshold, and the fuzzy list is sorted by
ascending distance. -/
theorem C6_host_search (db : List Host) (q : Str) (maxD : Nat) :
    ((∃ x ∈ db, hostExactMatch (strLower q) x) →
      searchHosts db q maxD =
        (db.filter (hostExactMatch (strLower q))).map
          (fun x => ⟨x, .exact, none⟩)) ∧
    ((¬ ∃ x ∈ db, hostExactMatch (strLower q) x) →
      (∀ r, r ∈ searchHosts db q maxD ↔
        ∃ x ∈ db, hostMinDist (strLower q) x ≤ maxD ∧
          r = ⟨x, .fuzzy, some (hostMinDist (strLower q) x)⟩) ∧
      (searchHosts db q maxD).Pairwise
        (fun a b => a.matchDistance.getD 0 ≤ b.matchDistance.getD 0)) ∧
    ((∀ r ∈ searchHosts db q maxD, r.matchType = .exact) ∨
      (∀ r ∈ searchHosts db q maxD, r.matchType = .fuzzy)) := by
  refine ⟨searchHosts_exact_branch, fun hno => ⟨fun r => ?_, ?_⟩, ?_⟩
  · rw [searchHosts_fuzzy_branch hno]
    simp only [List.mem_map, mem_sortBy, List.mem_filter, decide_eq_true_eq]
    constructor
    · rintro ⟨x, ⟨⟨y, hdb, heq⟩, hd⟩, hr⟩
      subst heq
      exact ⟨y, hdb, hd, hr.symm⟩
    · rintro ⟨y, hdb, hd, hr⟩
      exact ⟨(y, hostMinDist (strLower q) y), ⟨⟨y, hdb, rfl⟩, hd⟩, hr.symm⟩
  · rw [searchHosts_fuzzy_branch hno]
    rw [List.pairwise_map]
    have hp := @sortBy_pairwise (Host × Nat)
      (fun a b => decide (a.snd ≤ b.snd))
      ((db.map (fun x => (x, hostMinDist (strLower q) x))).filter
        (fun r => r.snd ≤ maxD))
      (fun a _ b _ => by
        rcases Nat.le_total a.snd b.snd with h | h <;> simp [h])
      (fun a _ b _ c _ h1 h2 => by
        simp only [decide_eq_true_eq] at h1 h2 ⊢
        omega)
    refine hp.imp ?_
    intro a b hab
    simpa using hab
  · by_cases hex : ∃ x ∈ db, hostExactMatch (strLower q) x
    · refine Or.inl ?_
      rw [searchHosts_exact_branch hex]
      intro r hr
      rcases List.mem_map.mp hr with ⟨x, _, hx⟩
      rw [hx.symm]
    · refine Or.inr ?_
      rw [searchHosts_fuzzy_branch hex]
      intro r hr
      rcases List.mem_map.mp hr with ⟨x, _, hx⟩
      rw [hx.symm]

/-- Witness for C6_host_search: the exact branch at query "droop" and the
fuzzy membership of klaatu (distance 1) at query "klattu". -/
theorem C6_host_search_witness :
    searchHosts [hostKlaatu, hostDroops] "droop".data 2 =
      (([hostKlaatu, hostDroops].filter
        (hostExactMatch (strLower "droop".data))).map (fun x => ⟨x, .exact, none⟩)) ∧
    (⟨hostKlaatu, .fuzzy, some 1⟩ : HostSearchResult) ∈
      searchHosts [hostKlaatu, hostDroops] "klattu".data 2 :=
  ⟨(C6_host_search [hostKlaatu, hostDroops] "droop".data 2).1
     ⟨hostDroops, by decide, by decide⟩,
   (((C6_host_search [hostKlaatu, hostDroops] "klattu".data 2).2.1 (by decide)).1 _).mpr
     ⟨hostKlaatu, by decide, by decide, by decide⟩⟩

/-!
## Claims C7, C8, C10 : transcript search scan
-/

lemma scanGo_matches_ne_nil (cs ww : Bool) (ms al : List Str) (ctx maxM : Nat) :
    ∀ (rem : List Str) (i : Nat) (st : ScanState), st.«matches» ≠ [] →
      (scanGo cs ww ms al ctx maxM i rem st).«matches» ≠ []
  | [], _, _, h => h
  | line :: rest, i, ⟨ml, mt, hc, tr⟩, h => by
    simp only [scanGo]
    by_cases hm : ms.filter (fun m => lineMatches cs ww m line) = [] <;>
      simp only [hm, ne_eq, not_true_eq_false, if_false, not_false_iff, if_true] <;>
      split
    · exact h
    · exact scanGo_matches_ne_nil cs ww ms al ctx maxM rest (i + 1) _ h
    · simp
    · exact scanGo_matches_ne_nil cs ww ms al ctx maxM rest (i + 1) _ (by simp)

lemma scanGo_no_match (cs ww : Bool) (ms al : List Str) (ctx maxM : Nat)
    (hmax : 1 ≤ maxM) :
    ∀ (rem : List Str) (i : Nat) (st : ScanState), st.«matches» = [] →
      ((scanGo cs ww ms al ctx maxM i rem st).«matches» = [] ↔
        ∀ l ∈ rem, ∀ m ∈ ms, ¬ lineMatches cs ww m l)
  | [], _, st, hst => by
    simp [scanGo, hst]
  | line :: rest, i, ⟨ml, mt, hc, tr⟩, hst => by
    simp only at hst
    subst hst
    simp only [scanGo]
    by_cases hm : ms.filter (fun m => lineMatches cs ww m line) = []
    · have hnomatch : ∀ m ∈ ms, ¬ lineMatches cs ww m line := by
        intro m hmem hline
        have hmm : m ∈ ms.filter (fun m => lineMatches cs ww m line) :=
          List.mem_filter.mpr ⟨hmem, hline⟩
        rw [hm] at hmm
        exact absurd hmm (List.not_mem_nil m)
      have hlen : ¬ maxM ≤ 0 := by omega
      simp only [hm, ne_eq, not_true_eq_false, if_false, List.length_nil]
      rw [if_neg hlen]
      rw [scanGo_no_match cs ww ms al ctx maxM hmax rest (i + 1) ⟨[], _, _, tr⟩ rfl]
      constructor
      · intro hrest l hl
        rcases List.mem_cons.mp hl with hl | hl
        · intro m hmem
          rw [hl]
          exact hnomatch m hmem
        · exact hrest l hl
      · intro hall l hl
        exact hall l (List.mem_cons.mpr (Or.inr hl))
    · rcases List.exists_mem_of_ne_nil _ hm with ⟨m, hmem⟩
      rcases List.mem_filter.mp hmem with ⟨hms, hline⟩
      have hfail : ¬ ∀ l ∈ line :: rest, ∀ w ∈ ms, ¬ lineMatches cs ww w l := by
        intro hall
        exact hall line (by simp) m hms hline
      simp only [hm, ne_eq, not_false_iff, if_true]
      constructor
      · intro hres
        exfalso
        revert hres
        split
        · simp
        · intro hres
          exact scanGo_matches_ne_nil cs ww ms al ctx maxM rest (i + 1) _
            (by simp) hres
      · intro hall
        exact absurd hall hfail

lemma countMatchingLines_cons (cs ww : Bool) (ms : List Str) (line : Str) (rest : List Str) :
    countMatchingLines cs ww ms (line :: rest) =
      countMatchingLines cs ww ms rest +
        (if ms.any (fun m => lineMatches cs ww m line) then 1 else 0) := by
  simp only [countMatchingLines, List.filter_cons]
  split
  · simp [Nat.add_comm]
  · simp

lemma any_eq_false_iff_filter_eq_nil (cs ww : Bool) (ms : List Str) (line : Str) :
    ms.any (fun m => lineMatches cs ww m line) = false ↔
      ms.filter (fun m => lineMatches cs ww m line) = [] := by
  simp [List.filter_eq_nil_iff, List.any_eq_true]

lemma scanGo_length_le (cs ww : Bool) (ms al : List Str) (ctx maxM : Nat) :
    ∀ (rem : List Str) (i : Nat) (st : ScanState), st.«matches».length < maxM →
      (scanGo cs ww ms al ctx maxM i rem st).«matches».length ≤ maxM
  | [], _, st, h => Nat.le_of_lt h
  | line :: rest, i, ⟨ml, mt, hc, tr⟩, h => by
    simp only at h
    simp only [scanGo]
    by_cases hm : ms.filter (fun m => lineMatches cs ww m line) = []
    · simp only [hm, ne_eq, not_true_eq_false, if_false]
      rw [if_neg (by omega : ¬ maxM ≤ ml.length)]
      exact scanGo_length_le cs ww ms al ctx maxM rest (i + 1) ⟨ml, _, _, tr⟩ h
    · simp only [hm, ne_eq, not_false_iff, if_true, List.length_append,
        List.length_singleton]
      by_cases hbr : maxM ≤ ml.length + 1
      · rw [if_pos hbr]
        simpa using by omega
      · rw [if_neg hbr]
        exact scanGo_length_le cs ww ms al ctx maxM rest (i + 1) ⟨ml ++ [_], _, _, tr⟩
          (by simpa using by omega)

lemma scanGo_cap_hit (cs ww : Bool) (ms al : List Str) (ctx maxM : Nat) :
    ∀ (rem : List Str) (i : Nat) (st : ScanState), st.«matches».length < maxM →
      maxM ≤ st.«matches».length + countMatchingLines cs ww ms rem →
      (scanGo cs ww ms al ctx maxM i rem st).«matches».length = maxM ∧
        (scanGo cs ww ms al ctx maxM i rem st).truncated = true
  | [], _, st, h, hcap => by
    simp only [countMatchingLines, List.filter_nil, List.length_nil, Nat.add_zero] at hcap
    omega
  | line :: rest, i, ⟨ml, mt, hc, tr⟩, h, hcap => by
    simp only at h
    simp only [countMatchingLines_cons] at hcap
    simp only [scanGo]
    by_cases hm : ms.filter (fun m => lineMatches cs ww m line) = []
    · have hany : ms.any (fun m => lineMatches cs ww m line) = false :=
        (any_eq_false_iff_filter_eq_nil cs ww ms line).mpr hm
      rw [hany] at hcap
      simp only [Bool.false_eq_true, if_false, Nat.add_zero] at hcap
      simp only [hm, ne_eq, not_true_eq_false, if_false]
      rw [if_neg (by omega : ¬ maxM ≤ ml.length)]
      exact scanGo_cap_hit cs ww ms al ctx maxM rest (i + 1) ⟨ml, _, _, tr⟩ h hcap
    · have hany : ms.any (fun m => lineMatches cs ww m line) = true := by
        rcases Bool.eq_false_or_eq_true (ms.any (fun m => lineMatches cs ww m line)) with h2 | h2
        · exact h2
        · exact absurd ((any_eq_false_iff_filter_eq_nil cs ww ms line).mp h2) hm
      rw [hany] at hcap
      simp only [if_true] at hcap
      simp only [hm, ne_eq, not_false_iff, if_true, List.length_append,
        List.length_singleton]
      by_cases hbr : maxM ≤ ml.length + 1
      · rw [if_pos hbr]
        constructor
        · simpa using by omega
        · rfl
      · rw [if_neg hbr]
        exact scanGo_cap_hit cs ww ms al ctx maxM rest (i + 1) ⟨ml ++ [_], _, _, tr⟩
          (by simpa using by omega) (by simpa using by omega)

lemma insertDistinct_nodup [DecidableEq α] (x : α) {l : List α} (h : l.Nodup) :
    (insertDistinct x l).Nodup := by
  unfold insertDistinct
  split
  · exact h
  · next hx =>
    exact List.Nodup.append h (List.nodup_singleton x) (by simpa using hx)

lemma mem_insertDistinct [DecidableEq α] {x y : α} {l : List α} :
    y ∈ insertDistinct x l ↔ y = x ∨ y ∈ l := by
  unfold insertDistinct
  split
  · next hx =>
    constructor
    · exact Or.inr
    · rintro (rfl | hy)
      · exact hx
      · exact hy
  · simp [List.mem_append, or_comm]

lemma foldl_insertDistinct_nodup [DecidableEq α] :
    ∀ (l acc : List α), acc.Nodup →
      (l.foldl (fun a t => insertDistinct t a) acc).Nodup
  | [], _, h => h
  | x :: xs, acc, h =>
    foldl_insertDistinct_nodup xs (insertDistinct x acc) (insertDistinct_nodup x h)

lemma mem_foldl_insertDistinct [DecidableEq α] :
    ∀ (l acc : List α) (y : α), y ∈ l.foldl (fun a t => insertDistinct t a) acc →
      y ∈ acc ∨ y ∈ l
  | [], _, _, h => Or.inl h
  | x :: xs, acc, y, h => by
    rcases mem_foldl_insertDistinct xs (insertDistinct x acc) y h with h2 | h2
    · rcases mem_insertDistinct.mp h2 with rfl | h3
      · exact Or.inr (by simp)
      · exact Or.inl h3
    · exact Or.inr (List.mem_cons.mpr (Or.inr h2))

lemma scanGo_matchedTerms_nodup (cs ww : Bool) (ms al : List Str) (ctx maxM : Nat) :
    ∀ (rem : List Str) (i : Nat) (st : ScanState), st.matchedTerms.Nodup →
      (scanGo cs ww ms al ctx maxM i rem st).matchedTerms.Nodup
  | [], _, _, h => h
  | line :: rest, i, ⟨ml, mt, hc, tr⟩, h => by
    simp only at h
    have hnd : (List.foldl (fun a t => insertDistinct t a)
        mt (ms.filter (fun m => lineMatches cs ww m line))).Nodup :=
      foldl_insertDistinct_nodup _ _ h
    simp only [scanGo]
    by_cases hm : ms.filter (fun m => lineMatches cs ww m line) = []
    · simp only [hm, ne_eq, not_true_eq_false, if_false, List.foldl_nil]
      split
      · exact h
      · exact scanGo_matchedTerms_nodup cs ww ms al ctx maxM rest (i + 1) _ h
    · simp only [hm, ne_eq, not_false_iff, if_true]
      split
      · exact hnd
      · exact scanGo_matchedTerms_nodup cs ww ms al ctx maxM rest (i + 1) _ hnd

lemma scanGo_matchedTerms_subset (cs ww : Bool) (ms al : List Str) (ctx maxM : Nat) :
    ∀ (rem : List Str) (i : Nat) (st : ScanState) (y : Str),
      y ∈ (scanGo cs ww ms al ctx maxM i rem st).matchedTerms →
      y ∈ st.matchedTerms ∨ y ∈ ms
  | [], _, _, _, h => Or.inl h
  | line :: rest, i, ⟨ml, mt, hc, tr⟩, y, h => by
    have hstep : ∀ z : Str, z ∈ List.foldl (fun a t => insertDistinct t a)
        mt (ms.filter (fun m => lineMatches cs ww m line)) → z ∈ mt ∨ z ∈ ms := by
      intro z hz
      rcases mem_foldl_insertDistinct _ _ z hz with h2 | h2
      · exact Or.inl h2
      · exact Or.inr (List.mem_filter.mp h2).1
    revert h
    simp only [scanGo]
    by_cases hm : ms.filter (fun m => lineMatches cs ww m line) = []
    · simp only [hm, ne_eq, not_true_eq_false, if_false, List.foldl_nil]
      split <;> intro h
      · exact Or.inl h
      · rcases scanGo_matchedTerms_subset cs ww ms al ctx maxM rest (i + 1) _ y h with h2 | h2
        · exact Or.inl h2
        · exact Or.inr h2
    · simp only [hm, ne_eq, not_false_iff, if_true]
      split <;> intro h
      · exact hstep y h
      · rcases scanGo_matchedTerms_subset cs ww ms al ctx maxM rest (i + 1) _ y h with h2 | h2
        · exact hstep y h2
        · exact Or.inr h2

lemma evalTranscript_eq_scan {cs ww : Bool} {ms : List Str} {ctx maxM : Nat}
    {mode tr : Str} {st : ScanState}
    (h : evalTranscript cs ww ms ctx maxM mode tr = some st) :
    st = scanTranscript cs ww ms ctx maxM tr := by
  unfold evalTranscript at h
  by_cases h1 : (scanTranscript cs ww ms ctx maxM tr).«matches» = []
  · rw [if_pos h1] at h
    exact absurd h (by simp)
  · rw [if_neg h1] at h
    by_cases h2 : mode = "all".data ∧
        (scanTranscript cs ww ms ctx maxM tr).matchedTerms.length < ms.length
    · rw [if_pos h2] at h
      exact absurd h (by simp)
    · rw [if_neg h2] at h
      exact (Option.some.injEq _ _ ▸ h).symm

lemma evalTranscript_any_isSome (cs ww : Bool) (ms : List Str) (ctx maxM : Nat)
    (tr : Str) (hmax : 1 ≤ maxM) :
    (evalTranscript cs ww ms ctx maxM "any".data tr).isSome ↔
      ∃ l ∈ splitLines tr, ∃ m ∈ ms, lineMatches cs ww m l := by
  unfold evalTranscript scanTranscript
  have hiff := scanGo_no_match cs ww ms (splitLines tr) ctx maxM hmax
    (splitLines tr) 0 ⟨[], [], [], false⟩ rfl
  by_cases h : (scanGo cs ww ms (splitLines tr) ctx maxM 0 (splitLines tr)
      ⟨[], [], [], false⟩).«matches» = []
  · rw [if_pos h]
    have hno := hiff.mp h
    simp only [Option.isSome_none, Bool.false_eq_true, false_iff]
    rintro ⟨l, hl, m, hm, hmatch⟩
    exact hno l hl m hm hmatch
  · rw [if_neg h]
    rw [if_neg (by
      rintro ⟨h2, -⟩
      exact absurd h2 (by decide))]
    simp only [Option.isSome_some, true_iff]
    have hnot := (not_iff_not.mpr hiff).mp h
    push_neg at hnot
    rcases hnot with ⟨l, hl, m, hm, hmatch⟩
    exact ⟨l, hl, m, hm, by simpa using hmatch⟩

lemma evalTranscript_all_coverage {cs ww : Bool} {ms : List Str} {ctx maxM : Nat}
    {tr : Str} {st : ScanState}
    (h : evalTranscript cs ww ms ctx maxM "all".data tr = some st) :
    ∀ m ∈ ms, m ∈ st.matchedTerms := by
  have hst := evalTranscript_eq_scan h
  unfold evalTranscript at h
  by_cases h1 : (scanTranscript cs ww ms ctx maxM tr).«matches» = []
  · rw [if_pos h1] at h
    exact absurd h (by simp)
  · rw [if_neg h1] at h
    by_cases h2 : "all".data = "all".data ∧
        (scanTranscript cs ww ms ctx maxM tr).matchedTerms.length < ms.length
    · rw [if_pos h2] at h
      exact absurd h (by simp)
    · rw [if_neg h2] at h
      have hlen : ms.length ≤ (scanTranscript cs ww ms ctx maxM tr).matchedTerms.length := by
        by_contra hlt
        exact h2 ⟨rfl, by omega⟩
      have hnodup : (scanTranscript cs ww ms ctx maxM tr).matchedTerms.Nodup :=
        scanGo_matchedTerms_nodup cs ww ms (splitLines tr) ctx maxM
          (splitLines tr) 0 ⟨[], [], [], false⟩ (by simp)
      have hsub : ∀ y ∈ (scanTranscript cs ww ms ctx maxM tr).matchedTerms, y ∈ ms := by
        intro y hy
        rcases scanGo_matchedTerms_subset cs ww ms (splitLines tr) ctx maxM
          (splitLines tr) 0 ⟨[], [], [], false⟩ y hy with h3 | h3
        · exact absurd h3 (List.not_mem_nil y)
        · exact h3
      intro m hm
      have hSsubT : (scanTranscript cs ww ms ctx maxM tr).matchedTerms.toFinset ⊆
          ms.toFinset := fun y hy =>
        List.mem_toFinset.mpr (hsub y (List.mem_toFinset.mp hy))
      have hcard : ms.toFinset.card ≤
          (scanTranscript cs ww ms ctx maxM tr).matchedTerms.toFinset.card := by
        rw [List.toFinset_card_of_nodup hnodup, List.card_toFinset]
        calc ms.dedup.length ≤ ms.length := (List.dedup_sublist ms).length_le
        _ ≤ _ := hlen
      have heq := Finset.eq_of_subset_of_card_le hSsubT hcard
      rw [hst]
      exact List.mem_toFinset.mp (heq ▸ List.mem_toFinset.mpr hm)

/-- C7: under `any` mode an episode is kept iff some transcript line matches
some matcher; under `all` mode an episode is kept only if the distinct terms
matched across its recorded lines cover every matcher; concretely, with
terms ["alpha","beta"] an episode whose transcript contains only "alpha" is
excluded by `all` mode and included by `any` mode. -/
theorem C7_match_modes :
    (∀ (cs ww : Bool) (ms : List Str) (ctx maxM : Nat) (tr : Str), 1 ≤ maxM →
      ((evalTranscript cs ww ms ctx maxM "any".data tr).isSome ↔
        ∃ l ∈ splitLines tr, ∃ m ∈ ms, lineMatches cs ww m l)) ∧
    (∀ (cs ww : Bool) (ms : List Str) (ctx maxM : Nat) (tr : Str) (st : ScanState),
      evalTranscript cs ww ms ctx maxM "all".data tr = some st →
      ∀ m ∈ ms, m ∈ st.matchedTerms) ∧
    searchTranscripts dbOnlyAlpha [] tsAll = [] ∧
    (searchTranscripts dbOnlyAlpha [] tsAny).map (fun r => r.episode.id) = [1] :=
  ⟨fun cs ww ms ctx maxM tr hmax => evalTranscript_any_isSome cs ww ms ctx maxM tr hmax,
   fun _ _ _ _ _ _ _ h => evalTranscript_all_coverage h,
   by decide,
   by decide⟩

/-- Witness for C7_match_modes: the `any`-mode verdict is positive on the
alpha transcript because its first line matches "alpha". -/
theorem C7_match_modes_witness :
    (evalTranscript false false ["alpha".data, "beta".data] 3 5 "any".data
      trOnlyAlpha).isSome :=
  (C7_match_modes.1 false false ["alpha".data, "beta".data] 3 5 trOnlyAlpha
    (by decide)).mpr
    ⟨"alpha stuff here".data, by decide, "alpha".data, by decide, by decide⟩

/-- C8, as stated, is false on the code for the edge value
`maxMatchesPerEpisode = 0`: the cap is only checked after a match has been
recorded, so the first matching line is still recorded and the episode is
returned with one match — exceeding the cap of zero. -/
theorem C8_counterexample :
    (searchTranscripts dbOneAlpha "alpha".data
        { maxMatchesPerEpisode := 0 }).map (fun r => r.«matches».length) = [1] := by
  decide

/-- C8 (amended): for every `maxMatchesPerEpisode ≥ 1`, the number of
recorded line matches never exceeds the cap; when a transcript has more
matching lines than the cap, exactly `maxMatchesPerEpisode` matches are
recorded and the summary's truncated flag is true; concretely, with cap 2
and a transcript with six matching lines, exactly 2 matches are returned and
truncated is true. -/
theorem C8_amended :
    (∀ (cs ww : Bool) (ms : List Str) (ctx maxM : Nat) (mode tr : Str)
      (st : ScanState), 1 ≤ maxM →
      evalTranscript cs ww ms ctx maxM mode tr = some st →
      st.«matches».length ≤ maxM) ∧
    (∀ (cs ww : Bool) (ms : List Str) (ctx maxM : Nat) (tr : Str), 1 ≤ maxM →
      maxM < countMatchingLines cs ww ms (splitLines tr) →
      (scanTranscript cs ww ms ctx maxM tr).«matches».length = maxM ∧
        (scanTranscript cs ww ms ctx maxM tr).truncated = true) ∧
    (searchTranscripts dbOnlyAlpha "alpha".data
        { maxMatchesPerEpisode := 2 }).map
      (fun r => (r.«matches».length, r.matchSummary.truncated)) = [(2, true)] := by
  refine ⟨?_, ?_, by decide⟩
  · intro cs ww ms ctx maxM mode tr st hmax h
    rw [evalTranscript_eq_scan h]
    exact scanGo_length_le cs ww ms (splitLines tr) ctx maxM (splitLines tr) 0
      ⟨[], [], [], false⟩ (by simpa using hmax)
  · intro cs ww ms ctx maxM tr hmax hcount
    exact scanGo_cap_hit cs ww ms (splitLines tr) ctx maxM (splitLines tr) 0
      ⟨[], [], [], false⟩ (by simpa using hmax) (by simpa using Nat.le_of_lt hcount)

/-- Witness for C8_amended: the clamp theorem applied to the alpha transcript
with cap 2 (six matching lines). -/
theorem C8_amended_witness :
    (scanTranscript false false ["alpha".data] 3 2 trOnlyAlpha).«matches».length = 2 ∧
    (scanTranscript false false ["alpha".data] 3 2 trOnlyAlpha).truncated = true :=
  C8_amended.2.1 false false ["alpha".data] 3 2 trOnlyAlpha (by decide) (by decide)

/-- C10: the scan stops permanently on the iteration where the match count
reaches the cap and the truncated flag is set even when the transcript holds
exactly `maxMatchesPerEpisode` matching lines and nothing was omitted; and
summary data only reflects scanned lines — with terms ["alpha","beta"], cap
1 and transcript lines "alpha" then "beta", `all` mode excludes the episode
although both terms occur in the transcript, and with cap 2 on the
six-alpha-line transcript the per-term hit count records only the two
scanned hits. -/
theorem C10_cap_semantics :
    (∀ (cs ww : Bool) (ms : List Str) (ctx maxM : Nat) (tr : Str), 1 ≤ maxM →
      countMatchingLines cs ww ms (splitLines tr) = maxM →
      (scanTranscript cs ww ms ctx maxM tr).truncated = true) ∧
    searchTranscripts dbAlphaBeta [] tsAllMax1 = [] ∧
    (∃ l ∈ splitLines trAlphaBeta, lineMatches false false "alpha".data l) ∧
    (∃ l ∈ splitLines trAlphaBeta, lineMatches false false "beta".data l) ∧
    (searchTranscripts dbOnlyAlpha "alpha".data
        { maxMatchesPerEpisode := 2 }).map
      (fun r => r.matchSummary.termHitCounts) = [[("alpha".data, 2)]] := by
  refine ⟨?_, by decide, by decide, by decide, by decide⟩
  intro cs ww ms ctx maxM tr hmax hcount
  exact (scanGo_cap_hit cs ww ms (splitLines tr) ctx maxM (splitLines tr) 0
    ⟨[], [], [], false⟩ (by simpa using hmax) (by simpa using Nat.le_of_eq hcount.symm)).2

/-- Witness for C10_cap_semantics: a transcript with exactly two matching
lines scanned under cap 2 is flagged truncated although nothing was cut. -/
theorem C10_cap_semantics_witness :
    (scanTranscript false false ["alpha".data] 3 2
      "alpha\nnothing\nalpha".data).truncated = true :=
  C10_cap_semantics.1 false false ["alpha".data] 3 2 "alpha\nnothing\nalpha".data
    (by decide) (by decide)
